import Mathlib

/-!
Verification of the WebAssembly function/module decoder (`binja_wasm`).

Shallow embedding of:
  * `src/binja/parse/func_parse.rs` — the two-pass function-body decoder
    (`parse_func`, `get_nth_block_id`, `patch_label`),
  * `src/binja/parse/module_parse.rs` — the code-section walker
    (`handle_code_section_entry`, the per-entry loop, the end-address check),
  * `src/binja/arch/insn_info.rs` — `_instruction_info`,
  * `src/binja/view.rs` — `init` (single-resident module guard),
  * `src/util/bin_util.rs` — `read_u32_leb128`.

The `wasmparser` operator reader is an external dependency; it is modelled by
its output: the list of decoded operators, each with the number of bytes the
reader consumed for it (`original_position` deltas).  The reader consumes at
least one byte per operator and reaches `eof` exactly at the end of the body
buffer, so the function's end address is the operator-stream start plus the
sum of the operator sizes.  `BTreeMap` is modelled as a key-sorted association
list (`bInsert`/`bLookup`).  Rust `usize` arithmetic in `get_nth_block_id`
wraps modulo 2^64 (release-profile semantics).
-/

namespace WasmView

/-- Decoded WASM operator shape, keeping exactly the distinctions the decoder
(`parse_func`) and the adapter (`_instruction_info`) make.  All remaining
opcodes fall into `otherOp` (the `_ => {}` arm of the source match). -/
inductive RawOp where
  | blockOp : RawOp
  | loopOp : RawOp
  | ifOp : RawOp
  | elseOp : RawOp
  | endOp : RawOp
  | brOp (relativeDepth : Nat) : RawOp
  | brIfOp (relativeDepth : Nat) : RawOp
  | brTableOp (targets : List Nat) (defaultDepth : Nat) : RawOp
  | unreachableOp : RawOp
  | returnOp : RawOp
  | callOp (functionIndex : Nat) : RawOp
  | callIndirectOp : RawOp
  | otherOp : RawOp
deriving Repr, DecidableEq

/-- One operator as produced by the reader: the decoded opcode plus the number
of bytes consumed for it (`next_offset - offset` in the source). -/
structure Insn where
  op : RawOp
  size : Nat
deriving Repr, DecidableEq

/-- Model of `BranchTarget<T>` from `module_data.rs`. -/
inductive BranchTarget (T : Type) where
  | unconditional (target : T) : BranchTarget T
  | conditional (true_target false_target : T) : BranchTarget T
  | table (targets : List T) (default_target : T) : BranchTarget T
  | functionEnd : BranchTarget T
deriving Repr, DecidableEq

/-- Model of `LabelKind` from `parse_func` (pass-1 deferred labels). -/
inductive LabelKind where
  | resolved (addr : Nat) : LabelKind
  | after (blockId : Nat) : LabelKind
  | break_ (blockId : Nat) : LabelKind
  | else_ (blockId : Nat) : LabelKind
deriving Repr, DecidableEq

/-- Model of `BlockKind` from `parse_func`. -/
inductive BlockKind where
  | normal : BlockKind
  | function : BlockKind
  | loop : BlockKind
  | if_ : BlockKind
  | ifElse (else_start : Nat) : BlockKind
deriving Repr, DecidableEq

/-- Model of `Block` from `parse_func`; the `OnceCell` is an `Option` whose write checks
that it was empty (`set` errors otherwise). -/
structure Block where
  start : Nat
  after : Option Nat
  kind : BlockKind
deriving Repr, DecidableEq

/-- Model of `OperatorData` from `module_data.rs`. -/
structure OperatorData where
  op : RawOp
  size : Nat
  target : Option (BranchTarget Nat)
deriving Repr, DecidableEq

/-- Model of `FunctionData` from `module_data.rs` (the raw byte buffer is not modelled;
the decoded operators are). -/
structure FunctionData where
  size_start : Nat
  locals_start : Nat
  ops_start : Nat
  end_ : Nat
  ops : List (Nat × OperatorData)
deriving Repr, DecidableEq

/-- Model of `BTreeMap::insert`: key-sorted association list, replacing an equal key. -/
def bInsert {α : Type} : List (Nat × α) → Nat → α → List (Nat × α)
  | [], k, v => [(k, v)]
  | (k1, v1) :: rest, k, v =>
    if k < k1 then (k, v) :: (k1, v1) :: rest
    else if k = k1 then (k, v) :: rest
    else (k1, v1) :: bInsert rest k v

/-- Model of `BTreeMap::get`. -/
def bLookup {α : Type} : List (Nat × α) → Nat → Option α
  | [], _ => none
  | (k1, v1) :: rest, k => if k = k1 then some v1 else bLookup rest k

/-- Pass-1 state of `parse_func`: the block arena, the open-scope stack
(`Vec`, top at the end), the recorded operators, the deferred branches, and
the reader position. -/
structure Pass1State where
  blocks : List Block
  blockStack : List Nat
  ops : List (Nat × OperatorData)
  unpatched : List (Nat × BranchTarget LabelKind)
  offset : Nat
deriving Repr, DecidableEq

/-- The `usize` modulus: `get_nth_block_id` subtracts with release-profile
wrap-around semantics. -/
def U64 : Nat := 2 ^ 64

/-- Model of `get_nth_block_id`: `block_stack.get(block_stack.len() - n - 1)`, the
subtraction wrapping modulo 2^64. -/
def get_nth_block_id (blockStack : List Nat) (n : Nat) : Except Unit Nat :=
  match blockStack[(blockStack.length + U64 - (n + 1)) % U64]? with
  | some blockId => .ok blockId
  | none => .error ()

/-- One iteration of the pass-1 `while` loop of `parse_func`: the `match` on
the operator, then the unconditional `ops.insert`, then the position update. -/
def step (st : Pass1State) (i : Insn) : Except Unit Pass1State :=
  let offset := st.offset
  let nextOffset := st.offset + i.size
  let recorded : List (Nat × OperatorData) := bInsert st.ops offset ⟨i.op, i.size, none⟩
  match i.op with
  | .blockOp =>
    .ok { blocks := st.blocks ++ [⟨offset, none, .normal⟩],
          blockStack := st.blockStack ++ [st.blocks.length],
          ops := recorded, unpatched := st.unpatched, offset := nextOffset }
  | .loopOp =>
    .ok { blocks := st.blocks ++ [⟨offset, none, .loop⟩],
          blockStack := st.blockStack ++ [st.blocks.length],
          ops := recorded, unpatched := st.unpatched, offset := nextOffset }
  | .ifOp =>
    .ok { blocks := st.blocks ++ [⟨offset, none, .if_⟩],
          blockStack := st.blockStack ++ [st.blocks.length],
          ops := recorded,
          unpatched := bInsert st.unpatched offset
            (.conditional (.resolved nextOffset) (.else_ st.blocks.length)),
          offset := nextOffset }
  | .elseOp =>
    match st.blockStack.getLast? with
    | none => .error ()
    | some blockId =>
      match st.blocks[blockId]? with
      | none => .error ()
      | some b =>
        if b.kind = .if_ then
          .ok { blocks := st.blocks.set blockId { b with kind := .ifElse nextOffset },
                blockStack := st.blockStack,
                ops := recorded,
                unpatched := bInsert st.unpatched offset (.unconditional (.after blockId)),
                offset := nextOffset }
        else .error ()
  | .brOp relativeDepth =>
    match get_nth_block_id st.blockStack relativeDepth with
    | .error _ => .error ()
    | .ok blockId =>
      .ok { blocks := st.blocks, blockStack := st.blockStack, ops := recorded,
            unpatched := bInsert st.unpatched offset (.unconditional (.break_ blockId)),
            offset := nextOffset }
  | .brIfOp relativeDepth =>
    match get_nth_block_id st.blockStack relativeDepth with
    | .error _ => .error ()
    | .ok blockId =>
      .ok { blocks := st.blocks, blockStack := st.blockStack, ops := recorded,
            unpatched := bInsert st.unpatched offset
              (.conditional (.break_ blockId) (.resolved nextOffset)),
            offset := nextOffset }
  | .brTableOp targets defaultDepth =>
    match targets.mapM (fun t => (get_nth_block_id st.blockStack t).map LabelKind.break_) with
    | .error _ => .error ()
    | .ok target_labels =>
      match get_nth_block_id st.blockStack defaultDepth with
      | .error _ => .error ()
      | .ok default_id =>
        .ok { blocks := st.blocks, blockStack := st.blockStack, ops := recorded,
              unpatched := bInsert st.unpatched offset
                (.table target_labels (.break_ default_id)),
              offset := nextOffset }
  | .endOp =>
    match st.blockStack.getLast? with
    | none => .error ()
    | some blockId =>
      match st.blocks[blockId]? with
      | none => .error ()
      | some b =>
        match b.after with
        | some _ => .error ()
        | none =>
          .ok { blocks := st.blocks.set blockId { b with after := some nextOffset },
                blockStack := st.blockStack.dropLast,
                ops := recorded,
                unpatched :=
                  if b.kind = .function then bInsert st.unpatched offset .functionEnd
                  else st.unpatched,
                offset := nextOffset }
  | _ =>
    .ok { blocks := st.blocks, blockStack := st.blockStack, ops := recorded,
          unpatched := st.unpatched, offset := nextOffset }

/-- The pass-1 `while !ops_reader.eof()` loop. -/
def pass1 : Pass1State → List Insn → Except Unit Pass1State
  | st, [] => .ok st
  | st, i :: rest =>
    match step st i with
    | .error e => .error e
    | .ok st1 => pass1 st1 rest

/-- The initial pass-1 state: one implicit `Function` block covering the body
(`push_block(..., ops_start, BlockKind::Function)` on empty arena and stack). -/
def initState (ops_start : Nat) : Pass1State :=
  { blocks := [⟨ops_start, none, .function⟩], blockStack := [0],
    ops := [], unpatched := [], offset := ops_start }

/-- Model of `patch_label` from pass 2 of `parse_func`. -/
def patch_label (blocks : List Block) : LabelKind → Except Unit Nat
  | .resolved addr => .ok addr
  | .after blockId =>
    match blocks[blockId]? with
    | none => .error ()
    | some b =>
      match b.after with
      | none => .error ()
      | some a => .ok a
  | .break_ blockId =>
    match blocks[blockId]? with
    | none => .error ()
    | some b =>
      if b.kind = .loop then .ok b.start
      else
        match b.after with
        | none => .error ()
        | some a => .ok a
  | .else_ blockId =>
    match blocks[blockId]? with
    | none => .error ()
    | some b =>
      match b.kind with
      | .ifElse else_start => .ok else_start
      | _ =>
        match b.after with
        | none => .error ()
        | some a => .ok a

/-- Patching one deferred `BranchTarget<LabelKind>` into a
`BranchTargetAddr`. -/
def patchBranch (blocks : List Block) : BranchTarget LabelKind → Except Unit (BranchTarget Nat)
  | .unconditional l => (patch_label blocks l).map .unconditional
  | .conditional t f =>
    match patch_label blocks t with
    | .error e => .error e
    | .ok ta =>
      match patch_label blocks f with
      | .error e => .error e
      | .ok fa => .ok (.conditional ta fa)
  | .table ts d =>
    match ts.mapM (patch_label blocks) with
    | .error e => .error e
    | .ok tas =>
      match patch_label blocks d with
      | .error e => .error e
      | .ok da => .ok (.table tas da)
  | .functionEnd => .ok .functionEnd

/-- Model of `ops.get_mut(offset).ok_or(())?.target = Some(branch)`. -/
def bSetTarget : List (Nat × OperatorData) → Nat → BranchTarget Nat →
    Except Unit (List (Nat × OperatorData))
  | [], _, _ => .error ()
  | (k, od) :: rest, o, br =>
    if k = o then .ok ((k, { od with target := some br }) :: rest)
    else
      match bSetTarget rest o br with
      | .error e => .error e
      | .ok rest2 => .ok ((k, od) :: rest2)

/-- Pass 2 of `parse_func`: patch every deferred branch, in key order. -/
def pass2 (blocks : List Block) :
    List (Nat × BranchTarget LabelKind) → List (Nat × OperatorData) →
    Except Unit (List (Nat × OperatorData))
  | [], ops => .ok ops
  | (offset, ub) :: rest, ops =>
    match patchBranch blocks ub with
    | .error e => .error e
    | .ok branch =>
      match bSetTarget ops offset branch with
      | .error e => .error e
      | .ok ops2 => pass2 blocks rest ops2

/-- Model of `parse_func` from `func_parse.rs`.  `localsLen` is the byte length of the
locals vector the reader skips (`ops_start - locals_start`); `insns` is the
operator stream as decoded by the reader. -/
def parse_func (size_start locals_start localsLen : Nat) (insns : List Insn) :
    Except Unit FunctionData :=
  match pass1 (initState (locals_start + localsLen)) insns with
  | .error e => .error e
  | .ok st =>
    match pass2 st.blocks st.unpatched st.ops with
    | .error e => .error e
    | .ok ops =>
      .ok ⟨size_start, locals_start, locals_start + localsLen, st.offset, ops⟩

/-- Model of `ModuleData` from `module_data.rs`: the `RangeMap` of functions is a list
of `((range_start, range_end), FunctionData)` in insertion order (the walker
inserts disjoint, increasing ranges), plus the function-address list. -/
structure ModuleData where
  funcs : List ((Nat × Nat) × FunctionData)
  func_addrs : List Nat
deriving Repr, DecidableEq

/-- Model of `ModuleData::new()`. -/
def ModuleData.new : ModuleData := ⟨[], []⟩

/-- Model of `RangeMap::get(&addr)`: the entry whose half-open range contains `addr`. -/
def rangeGet : List ((Nat × Nat) × FunctionData) → Nat → Option FunctionData
  | [], _ => none
  | ((lo, hi), fd) :: rest, addr =>
    if lo ≤ addr ∧ addr < hi then some fd else rangeGet rest addr

/-- Host edge kinds used by `_instruction_info` (`BranchInfo::new(kind)`,
appended in call order by `add_branch`). -/
inductive BranchKind where
  | unconditionalB (addr : Nat) : BranchKind
  | trueB (addr : Nat) : BranchKind
  | falseB (addr : Nat) : BranchKind
  | indirect : BranchKind
  | functionReturn : BranchKind
  | callB (addr : Nat) : BranchKind
  | exception : BranchKind
deriving Repr, DecidableEq

/-- Model of `InstructionInfo`: byte length plus the appended branch list. -/
structure InstructionInfo where
  length : Nat
  branches : List BranchKind
deriving Repr, DecidableEq

/-- Model of `_instruction_info` from `insn_info.rs`.  The `?` on
`module_data.func_addrs.get(...)` propagates `None` for the whole query. -/
def _instruction_info (module_data : ModuleData) (addr : Nat) : Option InstructionInfo :=
  match rangeGet module_data.funcs addr with
  | none => none
  | some func =>
    if addr = func.size_start then
      some ⟨func.locals_start - func.size_start, []⟩
    else if addr = func.locals_start then
      some ⟨func.ops_start - func.locals_start, []⟩
    else
      match bLookup func.ops addr with
      | none => none
      | some op =>
        let targetBranches : List BranchKind :=
          match op.target with
          | none => []
          | some (.unconditional a) => [.unconditionalB a]
          | some (.conditional t f) => [.trueB t, .falseB f]
          | some (.table _ _) => [.indirect]
          | some .functionEnd => [.functionReturn]
        match op.op with
        | .unreachableOp => some ⟨op.size, targetBranches ++ [.exception]⟩
        | .returnOp => some ⟨op.size, targetBranches ++ [.functionReturn]⟩
        | .callOp function_index =>
          match module_data.func_addrs[function_index]? with
          | none => none
          | some a => some ⟨op.size, targetBranches ++ [.callB a]⟩
        | .callIndirectOp => some ⟨op.size, targetBranches⟩
        | _ => some ⟨op.size, targetBranches⟩

/-- One code-section entry as the walker sees it after its LEB reads:
`sizeLen` bytes of size prefix, declared body `size`, and the body content
(locals-vector length plus decoded operators) the byte source holds there. -/
structure CodeEntry where
  sizeLen : Nat
  size : Nat
  localsLen : Nat
  ops : List Insn
deriving Repr, DecidableEq

/-- Abstracted host collaborators for the walk: the "is in a code segment"
predicate, the byte count `view.read` returns for a requested range, and
whether `add_auto_function` succeeds at an address. -/
structure WalkEnv where
  codeSeg : Nat → Bool
  readLen : Nat → Nat → Nat
  addFnOk : Nat → Bool

/-- Model of `handle_code_section_entry` from `module_parse.rs`.  Result is paired with
the (possibly partially mutated) `ModuleData`: the `funcs` insert happens
before the `add_auto_function` check. -/
def handle_code_section_entry (env : WalkEnv) (module_data : ModuleData)
    (size_start locals_start end_ : Nat) (localsLen : Nat) (ops : List Insn) :
    Except Unit Unit × ModuleData :=
  if (env.codeSeg size_start) = false then (.error (), module_data)
  else if env.readLen locals_start (end_ - locals_start) ≠ end_ - locals_start then
    (.error (), module_data)
  else
    match parse_func size_start locals_start localsLen ops with
    | .error _ => (.error (), module_data)
    | .ok fd =>
      let module_data :=
        { module_data with funcs := module_data.funcs ++ [((size_start, end_), fd)] }
      if env.addFnOk size_start = false then (.error (), module_data)
      else (.ok (), module_data)

/-- The per-entry `for _ in 0..count` loop of the code-section walk: threads
the address cursor, the declared function index, and the module data.  On a
per-entry failure the `?` in the source propagates immediately. -/
def walkEntries (env : WalkEnv) :
    List CodeEntry → ModuleData → Nat → Nat →
    Except Unit Unit × ModuleData × Nat × Nat
  | [], module_data, addr, func_index => (.ok (), module_data, addr, func_index)
  | e :: rest, module_data, addr, func_index =>
    let size_start := addr
    let locals_start := addr + e.sizeLen
    let end_ := locals_start + e.size
    match handle_code_section_entry env module_data size_start locals_start end_
        e.localsLen e.ops with
    | (.error _, md2) => (.error (), md2, addr, func_index)
    | (.ok _, md2) =>
      let md3 := { md2 with func_addrs := md2.func_addrs ++ [size_start] }
      walkEntries env rest md3 end_ (func_index + 1)

/-- The `CodeSectionStart` arm of `parse_module`: run all entries, then the
final boundary check `addr != range.end` which fails the whole module. -/
def handle_code_section (env : WalkEnv) (rangeStart rangeEnd countLen : Nat)
    (entries : List CodeEntry) (module_data : ModuleData) (func_index : Nat) :
    Except Unit Unit × ModuleData × Nat :=
  match walkEntries env entries module_data (rangeStart + countLen) func_index with
  | (.error _, md2, _, fi) => (.error (), md2, fi)
  | (.ok _, md2, addr, fi) =>
    if addr ≠ rangeEnd then (.error (), md2, fi) else (.ok (), md2, fi)

/-- The section payloads of `parse_module` that affect the module index:
imports advance the declared function counter, the code section runs the
walk, every other section only registers host segments. -/
inductive Payload where
  | importSection (imports : List Bool) : Payload
  | codeSection (rangeStart rangeEnd countLen : Nat) (entries : List CodeEntry) : Payload
  | otherSection : Payload
  | endPayload : Payload

/-- The payload loop of `parse_module` from `module_parse.rs`: imports bump
`func_index` once per function-typed import; the code section is walked with
the running `func_index`; `Payload::End` breaks the loop. -/
def parse_module (env : WalkEnv) :
    List Payload → ModuleData → Nat → Except Unit Unit × ModuleData
  | [], module_data, _ => (.ok (), module_data)
  | p :: rest, module_data, func_index =>
    match p with
    | .importSection imports =>
      parse_module env rest module_data (func_index + (imports.filter id).length)
    | .codeSection rangeStart rangeEnd countLen entries =>
      match handle_code_section env rangeStart rangeEnd countLen entries
          module_data func_index with
      | (.error _, md2, _) => (.error (), md2)
      | (.ok _, md2, fi) => parse_module env rest md2 fi
    | .otherSection => parse_module env rest module_data func_index
    | .endPayload => (.ok (), module_data)

/-- Model of `init` from `view.rs`: the `SHOULD_PARSE` first-call shortcut, then the
single-resident guard on `MODULE_DATA`; only when no module is resident is a
fresh `ModuleData` created and the module parsed into it.  Returns the result,
the new `SHOULD_PARSE` flag, and the new resident module state. -/
def init (shouldParse : Bool) (resident : Option ModuleData) (env : WalkEnv)
    (payloads : List Payload) : Except Unit Unit × Bool × Option ModuleData :=
  if shouldParse = false then (.ok (), true, resident)
  else
    match resident with
    | some md => (.error (), shouldParse, some md)
    | none =>
      match parse_module env payloads ModuleData.new 0 with
      | (r, md) => (r, shouldParse, some md)

/-- Strictly ascending keys (the shape `bInsert` maintains, matching
`BTreeMap` iteration order). -/
def keysSorted {α : Type} : List (Nat × α) → Prop
  | [] => True
  | [_] => True
  | (k1, _) :: (k2, v2) :: rest => k1 < k2 ∧ keysSorted ((k2, v2) :: rest)

/-- Predicate `tiles a b ranges`: the `(offset, length)` ranges are contiguous, start at
`a`, and end exactly at `b` — no gaps, no overlaps. -/
def tiles : Nat → Nat → List (Nat × Nat) → Bool
  | a, b, [] => a == b
  | a, b, (o, s) :: rest => o == a && tiles (a + s) b rest

/-- The labels contained in a deferred branch target, in patch order. -/
def labelsOf : BranchTarget LabelKind → List LabelKind
  | .unconditional l => [l]
  | .conditional t f => [t, f]
  | .table ts d => ts ++ [d]
  | .functionEnd => []

/-- The addresses contained in a patched branch target, in patch order. -/
def addrsOf : BranchTarget Nat → List Nat
  | .unconditional a => [a]
  | .conditional t f => [t, f]
  | .table ts d => ts ++ [d]
  | .functionEnd => []

/-- All recorded keys lie strictly below the reader position (holds for every
reachable pass-1 state). -/
def Bounded (st : Pass1State) : Prop :=
  (∀ p ∈ st.ops, p.1 < st.offset) ∧ ∀ p ∈ st.unpatched, p.1 < st.offset

/-- Holds when `a` is the address immediately after the `end` operator that pops (and
thereby matches) block `blockId`: some prefix of the stream reaches a state
whose innermost open scope is `blockId`, the next operator is `end`, and `a`
is the position just past it. -/
def EndProv (ops_start : Nat) (insns : List Insn) (blockId a : Nat) : Prop :=
  ∃ pre e post stPre, insns = pre ++ e :: post ∧
    pass1 (initState ops_start) pre = .ok stPre ∧
    e.op = .endOp ∧ stPre.blockStack.getLast? = some blockId ∧
    a = stPre.offset + e.size

/-- Holds when `a` is the address immediately after the `else` operator that converted
block `blockId` (the innermost open scope at that point) to `IfElse`. -/
def ElseProv (ops_start : Nat) (insns : List Insn) (blockId a : Nat) : Prop :=
  ∃ pre e post stPre, insns = pre ++ e :: post ∧
    pass1 (initState ops_start) pre = .ok stPre ∧
    e.op = .elseOp ∧ stPre.blockStack.getLast? = some blockId ∧
    a = stPre.offset + e.size

/-- Extract the success value of an `Except` (with explicit fallback); used
only to name concrete evaluation results in witnesses. -/
def getOk {α : Type} : Except Unit α → α → α
  | .ok x, _ => x
  | .error _, d => d

/-- Model of the `read_u32_leb128` loop from `bin_util.rs` over the bytes actually read
(`buf[..n_read]`, at most 5).  `result`, a `u32`, accumulates with `|=` and a
left shift that keeps the low 32 bits. -/
def read_u32_leb128_loop : List Nat → Nat → Nat → Nat → Except Unit (Nat × Nat)
  | [], _, _, _ => .error ()
  | b :: rest, result, shift, n_bytes =>
    let result := result ||| ((b &&& 127) <<< shift) % 2 ^ 32
    let n_bytes := n_bytes + 1
    if b &&& 128 = 0 then .ok (result, n_bytes)
    else read_u32_leb128_loop rest result (shift + 7) n_bytes

/-- Model of `read_u32_leb128` from `bin_util.rs`; `buf` is the byte slice read at the
address (length `min 5 available`, every element a byte value). -/
def read_u32_leb128 (buf : List Nat) : Except Unit (Nat × Nat) :=
  read_u32_leb128_loop buf 0 0 0

/-- The unsigned LEB128 value of a byte list (little-endian base-128 digits,
low 7 bits of each byte). -/
def lebValue : List Nat → Nat
  | [] => 0
  | b :: rest => b % 128 + 128 * lebValue rest

/-! ## Example function bodies used by the witnesses -/

/-- The body `block; br 0; end; end` — the spec's own example. -/
def exBrInsns : List Insn :=
  [⟨.blockOp, 1⟩, ⟨.brOp 0, 2⟩, ⟨.endOp, 1⟩, ⟨.endOp, 1⟩]

/-- The body `if; other; else; other; end; end`. -/
def exIfInsns : List Insn :=
  [⟨.ifOp, 1⟩, ⟨.otherOp, 1⟩, ⟨.elseOp, 1⟩, ⟨.otherOp, 1⟩, ⟨.endOp, 1⟩, ⟨.endOp, 1⟩]

/-- The pass-1 result of `exBrInsns` (with `size_start = 0`, `locals_start = 1`,
one locals byte). -/
def exBrSt : Pass1State :=
  getOk (pass1 (initState 2) exBrInsns) ⟨[], [], [], [], 0⟩

/-- The decoded `FunctionData` of `exBrInsns`. -/
def exBrFd : FunctionData :=
  getOk (parse_func 0 1 1 exBrInsns) ⟨0, 0, 0, 0, []⟩

/-- The pass-1 result of `exIfInsns`. -/
def exIfSt : Pass1State :=
  getOk (pass1 (initState 2) exIfInsns) ⟨[], [], [], [], 0⟩

/-- The decoded `FunctionData` of `exIfInsns`. -/
def exIfFd : FunctionData :=
  getOk (parse_func 0 1 1 exIfInsns) ⟨0, 0, 0, 0, []⟩

/-- A walk environment where every address is in a code segment, reads fill
their buffers, and `add_auto_function` succeeds. -/
def exEnv : WalkEnv := ⟨fun _ => true, fun _ n => n, fun _ => true⟩

/-- A walk environment whose segment check always fails (the per-function
"not in a code segment" path). -/
def exBadEnv : WalkEnv := ⟨fun _ => false, fun _ n => n, fun _ => true⟩

/-- The C5 example module: 3 function-typed imports, then a code section with
2 entries at `[10, 18)`; the first entry's body is `call 3`. -/
def exC5Payloads : List Payload :=
  [.importSection [true, true, true],
   .codeSection 10 18 1 [⟨1, 3, 1, [⟨.callOp 3, 2⟩]⟩, ⟨1, 2, 1, [⟨.otherOp, 1⟩]⟩],
   .endPayload]

/-- The module data the walker builds for `exC5Payloads`. -/
def exC5Md : ModuleData := (parse_module exEnv exC5Payloads ModuleData.new 0).2

/-- A decoded function whose only instruction is `call 5` (at offset 13). -/
def exC6Fd : FunctionData :=
  getOk (parse_func 11 12 1 [⟨.callOp 5, 2⟩]) ⟨0, 0, 0, 0, []⟩

/-- Module data holding `exC6Fd` with a one-entry function-address list, so
call index 5 is out of range. -/
def exC6Md : ModuleData := ⟨[((11, 15), exC6Fd)], [11]⟩

/-- Two entries whose first fails the code-segment check (used against C4). -/
def exC4Entries : List CodeEntry :=
  [⟨1, 2, 1, [⟨.otherOp, 1⟩]⟩, ⟨1, 2, 1, [⟨.otherOp, 1⟩]⟩]

/-! ## Association-list lemmas (`BTreeMap` model) -/

theorem bLookup_bInsert_self {α : Type} (l : List (Nat × α)) (k : Nat) (v : α) :
    bLookup (bInsert l k v) k = some v := by
  induction l with
  | nil => simp [bInsert, bLookup]
  | cons p rest ih =>
    obtain ⟨k1, v1⟩ := p
    by_cases h1 : k < k1
    · simp [bInsert, h1, bLookup]
    · by_cases h2 : k = k1
      · simp [bInsert, h1, h2, bLookup]
      · simp [bInsert, h1, h2, bLookup, ih]

theorem bLookup_bInsert_ne {α : Type} (l : List (Nat × α)) (k o : Nat) (v : α)
    (h : o ≠ k) : bLookup (bInsert l k v) o = bLookup l o := by
  induction l with
  | nil => simp [bInsert, bLookup, h]
  | cons p rest ih =>
    obtain ⟨k1, v1⟩ := p
    by_cases h1 : k < k1
    · simp only [bInsert, if_pos h1, bLookup, if_neg h]
    · by_cases h2 : k = k1
      · subst h2
        simp only [bInsert, if_neg h1, if_pos rfl, bLookup, if_neg h]
      · simp only [bInsert, if_neg h1, if_neg h2, bLookup]
        by_cases h3 : o = k1
        · simp [h3]
        · simp [h3, ih]

theorem mem_bInsert_self {α : Type} (l : List (Nat × α)) (k : Nat) (v : α) :
    (k, v) ∈ bInsert l k v := by
  induction l with
  | nil => simp [bInsert]
  | cons p rest ih =>
    obtain ⟨k1, v1⟩ := p
    by_cases h1 : k < k1
    · simp [bInsert, h1]
    · by_cases h2 : k = k1
      · simp [bInsert, h1, h2]
      · simp [bInsert, h1, h2, ih]

theorem mem_bInsert_of_mem {α : Type} {l : List (Nat × α)} {k o : Nat} {v x : α}
    (h : o ≠ k) (hm : (o, x) ∈ l) : (o, x) ∈ bInsert l k v := by
  induction l with
  | nil => simp at hm
  | cons p rest ih =>
    obtain ⟨k1, v1⟩ := p
    rcases List.mem_cons.mp hm with he | hr
    · by_cases h1 : k < k1
      · simp [bInsert, h1, he]
      · by_cases h2 : k = k1
        · exfalso
          rw [Prod.mk.injEq] at he
          exact h (he.1.trans h2.symm)
        · simp [bInsert, h1, h2, he]
    · by_cases h1 : k < k1
      · simp [bInsert, h1, hr]
      · by_cases h2 : k = k1
        · simp [bInsert, h1, h2, hr]
        · simp [bInsert, h1, h2, ih hr]

theorem mem_of_mem_bInsert {α : Type} {l : List (Nat × α)} {k o : Nat} {v x : α}
    (hm : (o, x) ∈ bInsert l k v) : (o = k ∧ x = v) ∨ (o, x) ∈ l := by
  induction l with
  | nil =>
    simp [bInsert] at hm
    exact Or.inl hm
  | cons p rest ih =>
    obtain ⟨k1, v1⟩ := p
    by_cases h1 : k < k1
    · simp only [bInsert, if_pos h1] at hm
      rcases List.mem_cons.mp hm with he | hr
      · rw [Prod.mk.injEq] at he
        exact Or.inl he
      · exact Or.inr hr
    · by_cases h2 : k = k1
      · simp only [bInsert, if_neg h1, if_pos h2] at hm
        rcases List.mem_cons.mp hm with he | hr
        · rw [Prod.mk.injEq] at he
          exact Or.inl he
        · exact Or.inr (List.mem_cons_of_mem _ hr)
      · simp only [bInsert, if_neg h1, if_neg h2] at hm
        rcases List.mem_cons.mp hm with he | hr
        · exact Or.inr (he ▸ List.mem_cons_self _ _)
        · rcases ih hr with hl | hr2
          · exact Or.inl hl
          · exact Or.inr (List.mem_cons_of_mem _ hr2)

theorem bInsert_eq_append {α : Type} {l : List (Nat × α)} {k : Nat} {v : α}
    (h : ∀ p ∈ l, p.1 < k) : bInsert l k v = l ++ [(k, v)] := by
  induction l with
  | nil => simp [bInsert]
  | cons p rest ih =>
    obtain ⟨k1, v1⟩ := p
    have hk1 : k1 < k := h (k1, v1) (List.mem_cons_self _ _)
    have h1 : ¬ k < k1 := by omega
    have h2 : k ≠ k1 := by omega
    simp only [bInsert, if_neg h1, if_neg h2, List.cons_append, List.cons.injEq, true_and]
    exact ih fun p hp => h p (List.mem_cons_of_mem _ hp)

theorem keysSorted_cons {α : Type} {k : Nat} {v : α} {l : List (Nat × α)}
    (hl : keysSorted l) (hk : ∀ p ∈ l, k < p.1) : keysSorted ((k, v) :: l) := by
  cases l with
  | nil => trivial
  | cons p rest =>
    obtain ⟨k1, v1⟩ := p
    exact ⟨hk (k1, v1) (List.mem_cons_self _ _), hl⟩

theorem keysSorted_tail {α : Type} {p : Nat × α} {l : List (Nat × α)}
    (h : keysSorted (p :: l)) : keysSorted l := by
  obtain ⟨k, v⟩ := p
  cases l with
  | nil => trivial
  | cons q rest => exact h.2

theorem keysSorted_head_lt {α : Type} {k : Nat} {v : α} {l : List (Nat × α)}
    (h : keysSorted ((k, v) :: l)) : ∀ p ∈ l, k < p.1 := by
  induction l generalizing k v with
  | nil => simp
  | cons q rest ih =>
    obtain ⟨k1, v1⟩ := q
    obtain ⟨hlt, hrest⟩ := h
    intro p hp
    rcases List.mem_cons.mp hp with he | hr
    · subst he; exact hlt
    · have := ih (k := k1) (v := v1) hrest p hr
      omega

theorem keysSorted_bInsert {α : Type} {l : List (Nat × α)} (k : Nat) (v : α)
    (h : keysSorted l) : keysSorted (bInsert l k v) := by
  induction l with
  | nil => trivial
  | cons p rest ih =>
    obtain ⟨k1, v1⟩ := p
    by_cases h1 : k < k1
    · simp only [bInsert, if_pos h1]
      refine keysSorted_cons h ?_
      intro q hq
      rcases List.mem_cons.mp hq with he | hr
      · subst he; exact h1
      · have := keysSorted_head_lt h q hr
        omega
    · by_cases h2 : k = k1
      · subst h2
        simp only [bInsert, if_neg h1, if_pos rfl]
        exact keysSorted_cons (keysSorted_tail h) (keysSorted_head_lt h)
      · simp only [bInsert, if_neg h1, if_neg h2]
        have hrest := ih (keysSorted_tail h)
        refine keysSorted_cons hrest ?_
        intro q hq
        rcases mem_of_mem_bInsert hq with ⟨hq1, _⟩ | hq2
        · subst hq1; omega
        · exact keysSorted_head_lt h q hq2

theorem keysSorted_distinct {α : Type} {l : List (Nat × α)} (h : keysSorted l)
    {k : Nat} {v : α} (hm : (k, v) ∈ l) : ∀ q ∈ l, q.1 = k → q.2 = v := by
  induction l with
  | nil => simp at hm
  | cons p rest ih =>
    obtain ⟨k1, v1⟩ := p
    intro q hq hqk
    rcases List.mem_cons.mp hm with he | hr
    · rw [Prod.mk.injEq] at he
      obtain ⟨hek, hev⟩ := he
      rcases List.mem_cons.mp hq with he2 | hr2
      · subst he2; exact hev.symm
      · exfalso
        have := keysSorted_head_lt h q hr2
        omega
    · rcases List.mem_cons.mp hq with he2 | hr2
      · exfalso
        have := keysSorted_head_lt h (k, v) hr
        subst he2
        simp only at hqk
        omega
      · exact ih (keysSorted_tail h) hr q hr2 hqk

/-! ## Pass-1 step lemmas -/

theorem step_offset_ops {st : Pass1State} {i : Insn} {st2 : Pass1State}
    (h : step st i = .ok st2) :
    st2.offset = st.offset + i.size ∧
    st2.ops = bInsert st.ops st.offset ⟨i.op, i.size, none⟩ := by
  cases hop : i.op <;> simp only [step, hop] at h <;>
    (try (cases h; exact ⟨rfl, rfl⟩)) <;>
    (repeat' split at h) <;> (try cases h) <;> exact ⟨rfl, rfl⟩

theorem step_after_src {st : Pass1State} {i : Insn} {st2 : Pass1State}
    (h : step st i = .ok st2) {bid : Nat} {b2 : Block} {a : Nat}
    (hb : st2.blocks[bid]? = some b2) (ha : b2.after = some a) :
    (∃ b, st.blocks[bid]? = some b ∧ b.after = some a) ∨
    (i.op = .endOp ∧ st.blockStack.getLast? = some bid ∧ a = st.offset + i.size) := by
  cases hop : i.op <;> simp only [step, hop] at h
  case blockOp | loopOp | ifOp =>
    cases h
    simp only at hb
    rcases Nat.lt_trichotomy bid st.blocks.length with h1 | h1 | h1
    · rw [List.getElem?_append_left h1] at hb
      exact Or.inl ⟨b2, hb, ha⟩
    · subst h1
      rw [List.getElem?_concat_length] at hb
      cases hb
      simp at ha
    · rw [List.getElem?_append_right (by omega),
        List.getElem?_eq_none (by simp; omega)] at hb
      cases hb
  case elseOp =>
    cases hlast : st.blockStack.getLast? with
    | none => rw [hlast] at h; cases h
    | some blockId =>
      rw [hlast] at h
      simp only [] at h
      cases hblk : st.blocks[blockId]? with
      | none => rw [hblk] at h; cases h
      | some b =>
        rw [hblk] at h
        simp only [] at h
        by_cases hkind : b.kind = .if_
        · rw [if_pos hkind] at h
          cases h
          simp only at hb
          by_cases hbe : bid = blockId
          · subst hbe
            have hlt : bid < st.blocks.length := (List.getElem?_eq_some.mp hblk).1
            rw [List.getElem?_set_self hlt] at hb
            cases hb
            exact Or.inl ⟨b, hblk, ha⟩
          · rw [List.getElem?_set_ne (fun hc => hbe hc.symm)] at hb
            exact Or.inl ⟨b2, hb, ha⟩
        · rw [if_neg hkind] at h
          cases h
  case brOp | brIfOp =>
    repeat' split at h
    all_goals try cases h
    exact Or.inl ⟨b2, hb, ha⟩
  case brTableOp =>
    repeat' split at h
    all_goals try cases h
    exact Or.inl ⟨b2, hb, ha⟩
  case endOp =>
    cases hlast : st.blockStack.getLast? with
    | none => rw [hlast] at h; cases h
    | some blockId =>
      rw [hlast] at h
      simp only [] at h
      cases hblk : st.blocks[blockId]? with
      | none => rw [hblk] at h; cases h
      | some b =>
        rw [hblk] at h
        simp only [] at h
        cases hafter : b.after with
        | some x => rw [hafter] at h; cases h
        | none =>
          rw [hafter] at h
          simp only [] at h
          cases h
          simp only at hb
          by_cases hbe : bid = blockId
          · subst hbe
            have hlt : bid < st.blocks.length := (List.getElem?_eq_some.mp hblk).1
            rw [List.getElem?_set_self hlt] at hb
            cases hb
            simp only at ha
            cases ha
            exact Or.inr ⟨rfl, rfl, rfl⟩
          · rw [List.getElem?_set_ne (fun hc => hbe hc.symm)] at hb
            exact Or.inl ⟨b2, hb, ha⟩
  all_goals
    cases h
    exact Or.inl ⟨b2, hb, ha⟩

theorem step_ifElse_src {st : Pass1State} {i : Insn} {st2 : Pass1State}
    (h : step st i = .ok st2) {bid : Nat} {b2 : Block} {es : Nat}
    (hb : st2.blocks[bid]? = some b2) (hk : b2.kind = .ifElse es) :
    (∃ b, st.blocks[bid]? = some b ∧ b.kind = .ifElse es) ∨
    (i.op = .elseOp ∧ st.blockStack.getLast? = some bid ∧ es = st.offset + i.size) := by
  cases hop : i.op <;> simp only [step, hop] at h
  case blockOp | loopOp | ifOp =>
    cases h
    simp only at hb
    rcases Nat.lt_trichotomy bid st.blocks.length with h1 | h1 | h1
    · rw [List.getElem?_append_left h1] at hb
      exact Or.inl ⟨b2, hb, hk⟩
    · subst h1
      rw [List.getElem?_concat_length] at hb
      cases hb
      simp at hk
    · rw [List.getElem?_append_right (by omega),
        List.getElem?_eq_none (by simp; omega)] at hb
      cases hb
  case elseOp =>
    cases hlast : st.blockStack.getLast? with
    | none => rw [hlast] at h; cases h
    | some blockId =>
      rw [hlast] at h
      simp only [] at h
      cases hblk : st.blocks[blockId]? with
      | none => rw [hblk] at h; cases h
      | some b =>
        rw [hblk] at h
        simp only [] at h
        by_cases hkind : b.kind = .if_
        · rw [if_pos hkind] at h
          cases h
          simp only at hb
          by_cases hbe : bid = blockId
          · subst hbe
            have hlt : bid < st.blocks.length := (List.getElem?_eq_some.mp hblk).1
            rw [List.getElem?_set_self hlt] at hb
            cases hb
            simp only at hk
            cases hk
            exact Or.inr ⟨rfl, rfl, rfl⟩
          · rw [List.getElem?_set_ne (fun hc => hbe hc.symm)] at hb
            exact Or.inl ⟨b2, hb, hk⟩
        · rw [if_neg hkind] at h
          cases h
  case brOp | brIfOp =>
    repeat' split at h
    all_goals try cases h
    exact Or.inl ⟨b2, hb, hk⟩
  case brTableOp =>
    repeat' split at h
    all_goals try cases h
    exact Or.inl ⟨b2, hb, hk⟩
  case endOp =>
    cases hlast : st.blockStack.getLast? with
    | none => rw [hlast] at h; cases h
    | some blockId =>
      rw [hlast] at h
      simp only [] at h
      cases hblk : st.blocks[blockId]? with
      | none => rw [hblk] at h; cases h
      | some b =>
        rw [hblk] at h
        simp only [] at h
        cases hafter : b.after with
        | some x => rw [hafter] at h; cases h
        | none =>
          rw [hafter] at h
          simp only [] at h
          cases h
          simp only at hb
          by_cases hbe : bid = blockId
          · subst hbe
            have hlt : bid < st.blocks.length := (List.getElem?_eq_some.mp hblk).1
            rw [List.getElem?_set_self hlt] at hb
            cases hb
            simp only at hk
            exact Or.inl ⟨b, hblk, hk⟩
          · rw [List.getElem?_set_ne (fun hc => hbe hc.symm)] at hb
            exact Or.inl ⟨b2, hb, hk⟩
  all_goals
    cases h
    exact Or.inl ⟨b2, hb, hk⟩

theorem step_block_persist {st : Pass1State} {i : Insn} {st2 : Pass1State}
    (h : step st i = .ok st2) {bid : Nat} {b : Block}
    (hb : st.blocks[bid]? = some b) :
    ∃ b2, st2.blocks[bid]? = some b2 ∧ b2.start = b.start ∧
      (b2.kind = b.kind ∨ (b.kind = .if_ ∧ ∃ es, b2.kind = .ifElse es)) := by
  have hlt : bid < st.blocks.length := (List.getElem?_eq_some.mp hb).1
  cases hop : i.op <;> simp only [step, hop] at h
  case blockOp | loopOp | ifOp =>
    cases h
    refine ⟨b, ?_, rfl, Or.inl rfl⟩
    simpa [List.getElem?_append_left hlt] using hb
  case elseOp =>
    cases hlast : st.blockStack.getLast? with
    | none => rw [hlast] at h; cases h
    | some blockId =>
      rw [hlast] at h
      simp only [] at h
      cases hblk : st.blocks[blockId]? with
      | none => rw [hblk] at h; cases h
      | some b1 =>
        rw [hblk] at h
        simp only [] at h
        by_cases hkind : b1.kind = .if_
        · rw [if_pos hkind] at h
          cases h
          simp only
          by_cases hbe : bid = blockId
          · subst hbe
            rw [hb] at hblk
            cases hblk
            exact ⟨_, List.getElem?_set_self hlt, rfl, Or.inr ⟨hkind, _, rfl⟩⟩
          · exact ⟨b, by rw [List.getElem?_set_ne (fun hc => hbe hc.symm)]; exact hb,
              rfl, Or.inl rfl⟩
        · rw [if_neg hkind] at h
          cases h
  case brOp | brIfOp =>
    repeat' split at h
    all_goals try cases h
    exact ⟨b, hb, rfl, Or.inl rfl⟩
  case brTableOp =>
    repeat' split at h
    all_goals try cases h
    exact ⟨b, hb, rfl, Or.inl rfl⟩
  case endOp =>
    cases hlast : st.blockStack.getLast? with
    | none => rw [hlast] at h; cases h
    | some blockId =>
      rw [hlast] at h
      simp only [] at h
      cases hblk : st.blocks[blockId]? with
      | none => rw [hblk] at h; cases h
      | some b1 =>
        rw [hblk] at h
        simp only [] at h
        cases hafter : b1.after with
        | some x => rw [hafter] at h; cases h
        | none =>
          rw [hafter] at h
          simp only [] at h
          cases h
          simp only
          by_cases hbe : bid = blockId
          · subst hbe
            rw [hb] at hblk
            cases hblk
            exact ⟨_, List.getElem?_set_self hlt, rfl, Or.inl rfl⟩
          · exact ⟨b, by rw [List.getElem?_set_ne (fun hc => hbe hc.symm)]; exact hb,
              rfl, Or.inl rfl⟩
  all_goals
    cases h
    exact ⟨b, hb, rfl, Or.inl rfl⟩

theorem step_unpatched_shape {st : Pass1State} {i : Insn} {st2 : Pass1State}
    (h : step st i = .ok st2) :
    st2.unpatched = st.unpatched ∨
    ∃ bt, st2.unpatched = bInsert st.unpatched st.offset bt := by
  cases hop : i.op <;> simp only [step, hop] at h <;>
    (try (cases h; first | exact Or.inl rfl | exact Or.inr ⟨_, rfl⟩)) <;>
    (repeat' split at h) <;> (try cases h) <;>
    first | exact Or.inl rfl | exact Or.inr ⟨_, rfl⟩

theorem step_if_emit {st : Pass1State} {i : Insn} {st2 : Pass1State}
    (h : step st i = .ok st2) (hop : i.op = .ifOp) :
    st2.unpatched = bInsert st.unpatched st.offset
      (.conditional (.resolved (st.offset + i.size)) (.else_ st.blocks.length)) ∧
    st2.blocks = st.blocks ++ [⟨st.offset, none, .if_⟩] := by
  simp only [step, hop] at h
  cases h
  exact ⟨rfl, rfl⟩

theorem step_else_emit {st : Pass1State} {i : Insn} {st2 : Pass1State}
    (h : step st i = .ok st2) (hop : i.op = .elseOp) :
    ∃ blockId b, st.blockStack.getLast? = some blockId ∧
      st.blocks[blockId]? = some b ∧ b.kind = .if_ ∧
      st2.unpatched = bInsert st.unpatched st.offset
        (.unconditional (.after blockId)) := by
  simp only [step, hop] at h
  cases hlast : st.blockStack.getLast? with
  | none => rw [hlast] at h; cases h
  | some blockId =>
    rw [hlast] at h
    simp only [] at h
    cases hblk : st.blocks[blockId]? with
    | none => rw [hblk] at h; cases h
    | some b =>
      rw [hblk] at h
      simp only [] at h
      by_cases hkind : b.kind = .if_
      · rw [if_pos hkind] at h
        cases h
        exact ⟨blockId, b, rfl, hblk, hkind, rfl⟩
      · rw [if_neg hkind] at h
        cases h

/-! ## Pass-1 execution lemmas -/

theorem pass1_append (st : Pass1State) (l1 l2 : List Insn) :
    pass1 st (l1 ++ l2) =
      match pass1 st l1 with
      | .error e => .error e
      | .ok st1 => pass1 st1 l2 := by
  induction l1 generalizing st with
  | nil => simp [pass1]
  | cons i rest ih =>
    simp only [List.cons_append, pass1]
    cases hstep : step st i with
    | error e => rfl
    | ok st1 => exact ih st1

theorem pass1_after_src {L : List Insn} {st0 st : Pass1State}
    (h : pass1 st0 L = .ok st) {bid : Nat} {b : Block} {a : Nat}
    (hb : st.blocks[bid]? = some b) (ha : b.after = some a) :
    (∃ b0, st0.blocks[bid]? = some b0 ∧ b0.after = some a) ∨
    ∃ pre e post stPre, L = pre ++ e :: post ∧ pass1 st0 pre = .ok stPre ∧
      e.op = .endOp ∧ stPre.blockStack.getLast? = some bid ∧
      a = stPre.offset + e.size := by
  induction L generalizing st0 with
  | nil =>
    cases h
    exact Or.inl ⟨b, hb, ha⟩
  | cons i rest ih =>
    simp only [pass1] at h
    cases hstep : step st0 i with
    | error e => rw [hstep] at h; cases h
    | ok st1 =>
      rw [hstep] at h
      rcases ih h with ⟨b1, hb1, ha1⟩ | ⟨pre, e, post, stPre, hL, hpre, hop, hlastp, haeq⟩
      · rcases step_after_src hstep hb1 ha1 with ⟨b0, hb0, ha0⟩ | ⟨hop, hlast2, haeq2⟩
        · exact Or.inl ⟨b0, hb0, ha0⟩
        · exact Or.inr ⟨[], i, rest, st0, rfl, rfl, hop, hlast2, haeq2⟩
      · refine Or.inr ⟨i :: pre, e, post, stPre, by simp [hL], ?_, hop, hlastp, haeq⟩
        simp only [pass1, hstep]
        exact hpre

theorem pass1_ifElse_src {L : List Insn} {st0 st : Pass1State}
    (h : pass1 st0 L = .ok st) {bid : Nat} {b : Block} {es : Nat}
    (hb : st.blocks[bid]? = some b) (hk : b.kind = .ifElse es) :
    (∃ b0, st0.blocks[bid]? = some b0 ∧ b0.kind = .ifElse es) ∨
    ∃ pre e post stPre, L = pre ++ e :: post ∧ pass1 st0 pre = .ok stPre ∧
      e.op = .elseOp ∧ stPre.blockStack.getLast? = some bid ∧
      es = stPre.offset + e.size := by
  induction L generalizing st0 with
  | nil =>
    cases h
    exact Or.inl ⟨b, hb, hk⟩
  | cons i rest ih =>
    simp only [pass1] at h
    cases hstep : step st0 i with
    | error e => rw [hstep] at h; cases h
    | ok st1 =>
      rw [hstep] at h
      rcases ih h with ⟨b1, hb1, hk1⟩ | ⟨pre, e, post, stPre, hL, hpre, hop, hlastp, hesq⟩
      · rcases step_ifElse_src hstep hb1 hk1 with ⟨b0, hb0, hk0⟩ | ⟨hop, hlast2, hesq2⟩
        · exact Or.inl ⟨b0, hb0, hk0⟩
        · exact Or.inr ⟨[], i, rest, st0, rfl, rfl, hop, hlast2, hesq2⟩
      · refine Or.inr ⟨i :: pre, e, post, stPre, by simp [hL], ?_, hop, hlastp, hesq⟩
        simp only [pass1, hstep]
        exact hpre

theorem pass1_block_persist {L : List Insn} {st0 st : Pass1State}
    (h : pass1 st0 L = .ok st) {bid : Nat} {b : Block}
    (hb : st0.blocks[bid]? = some b) :
    ∃ b2, st.blocks[bid]? = some b2 ∧ b2.start = b.start ∧
      (b2.kind = b.kind ∨ (b.kind = .if_ ∧ ∃ es, b2.kind = .ifElse es)) := by
  induction L generalizing st0 b with
  | nil =>
    cases h
    exact ⟨b, hb, rfl, Or.inl rfl⟩
  | cons i rest ih =>
    simp only [pass1] at h
    cases hstep : step st0 i with
    | error e => rw [hstep] at h; cases h
    | ok st1 =>
      rw [hstep] at h
      obtain ⟨b1, hb1, hstart1, hkind1⟩ := step_block_persist hstep hb
      obtain ⟨b2, hb2, hstart2, hkind2⟩ := ih h hb1
      refine ⟨b2, hb2, hstart2.trans hstart1, ?_⟩
      rcases hkind1 with hk1 | ⟨hif, es, hk1⟩
      · rcases hkind2 with hk2 | ⟨hif2, es2, hk2⟩
        · exact Or.inl (hk2.trans hk1)
        · exact Or.inr ⟨hk1 ▸ hif2, es2, hk2⟩
      · rcases hkind2 with hk2 | ⟨hif2, es2, hk2⟩
        · exact Or.inr ⟨hif, es, hk2.trans hk1⟩
        · rw [hk1] at hif2; cases hif2

theorem step_sorted {st : Pass1State} {i : Insn} {st2 : Pass1State}
    (h : step st i = .ok st2) (hs : keysSorted st.unpatched) :
    keysSorted st2.unpatched := by
  rcases step_unpatched_shape h with he | ⟨bt, he⟩
  · rw [he]; exact hs
  · rw [he]; exact keysSorted_bInsert _ _ hs

theorem pass1_sorted {L : List Insn} {st0 st : Pass1State}
    (h : pass1 st0 L = .ok st) (hs : keysSorted st0.unpatched) :
    keysSorted st.unpatched := by
  induction L generalizing st0 with
  | nil => cases h; exact hs
  | cons i rest ih =>
    simp only [pass1] at h
    cases hstep : step st0 i with
    | error e => rw [hstep] at h; cases h
    | ok st1 =>
      rw [hstep] at h
      exact ih h (step_sorted hstep hs)

theorem step_bounded {st : Pass1State} {i : Insn} {st2 : Pass1State}
    (h : step st i = .ok st2) (hpos : 0 < i.size) (hB : Bounded st) :
    Bounded st2 := by
  obtain ⟨hoff, hops⟩ := step_offset_ops h
  constructor
  · intro p hp
    obtain ⟨o, x⟩ := p
    rw [hops] at hp
    rcases mem_of_mem_bInsert hp with ⟨ho, _⟩ | hold
    · subst ho; omega
    · have := hB.1 (o, x) hold
      omega
  · intro p hp
    obtain ⟨o, x⟩ := p
    rcases step_unpatched_shape h with he | ⟨bt, he⟩
    · rw [he] at hp
      have := hB.2 (o, x) hp
      omega
    · rw [he] at hp
      rcases mem_of_mem_bInsert hp with ⟨ho, _⟩ | hold
      · subst ho; omega
      · have := hB.2 (o, x) hold
        omega

theorem pass1_bounded {L : List Insn} {st0 st : Pass1State}
    (h : pass1 st0 L = .ok st) (hpos : ∀ x ∈ L, 0 < x.size) (hB : Bounded st0) :
    Bounded st := by
  induction L generalizing st0 with
  | nil => cases h; exact hB
  | cons i rest ih =>
    simp only [pass1] at h
    cases hstep : step st0 i with
    | error e => rw [hstep] at h; cases h
    | ok st1 =>
      rw [hstep] at h
      exact ih h (fun x hx => hpos x (List.mem_cons_of_mem _ hx))
        (step_bounded hstep (hpos i (List.mem_cons_self _ _)) hB)

theorem step_unpatched_mem {st : Pass1State} {i : Insn} {st2 : Pass1State}
    (h : step st i = .ok st2) (hB : Bounded st) {o : Nat}
    {bt : BranchTarget LabelKind} (hm : (o, bt) ∈ st.unpatched) :
    (o, bt) ∈ st2.unpatched := by
  rcases step_unpatched_shape h with he | ⟨bt2, he⟩
  · rw [he]; exact hm
  · rw [he]
    refine mem_bInsert_of_mem ?_ hm
    have := hB.2 (o, bt) hm
    omega

theorem pass1_unpatched_mem {L : List Insn} {st0 st : Pass1State}
    (h : pass1 st0 L = .ok st) (hpos : ∀ x ∈ L, 0 < x.size) (hB : Bounded st0)
    {o : Nat} {bt : BranchTarget LabelKind} (hm : (o, bt) ∈ st0.unpatched) :
    (o, bt) ∈ st.unpatched := by
  induction L generalizing st0 with
  | nil => cases h; exact hm
  | cons i rest ih =>
    simp only [pass1] at h
    cases hstep : step st0 i with
    | error e => rw [hstep] at h; cases h
    | ok st1 =>
      rw [hstep] at h
      exact ih h (fun x hx => hpos x (List.mem_cons_of_mem _ hx))
        (step_bounded hstep (hpos i (List.mem_cons_self _ _)) hB)
        (step_unpatched_mem hstep hB hm)

theorem initState_bounded (ops_start : Nat) : Bounded (initState ops_start) := by
  constructor <;> intro p hp <;> simp [initState] at hp

theorem initState_sorted (ops_start : Nat) :
    keysSorted (initState ops_start).unpatched := by
  simp [initState, keysSorted]

theorem initState_after_none (ops_start : Nat) {bid : Nat} {b : Block}
    (hb : (initState ops_start).blocks[bid]? = some b) : b.after = none := by
  match bid, hb with
  | 0, hb =>
    simp [initState] at hb
    rw [← hb]

/-! ## Pass-2 lemmas -/

theorem bSetTarget_ok {ops : List (Nat × OperatorData)} {o : Nat}
    {br : BranchTarget Nat} {ops2 : List (Nat × OperatorData)}
    (h : bSetTarget ops o br = .ok ops2) :
    (∃ od, bLookup ops o = some od ∧
      bLookup ops2 o = some { od with target := some br }) ∧
    ∀ o2, o2 ≠ o → bLookup ops2 o2 = bLookup ops o2 := by
  induction ops generalizing ops2 with
  | nil => simp [bSetTarget] at h
  | cons p rest ih =>
    obtain ⟨k, od⟩ := p
    by_cases hk : k = o
    · subst hk
      simp only [bSetTarget, if_pos rfl] at h
      cases h
      refine ⟨⟨od, by simp [bLookup], by simp [bLookup]⟩, ?_⟩
      intro o2 ho2
      simp only [bLookup]
      by_cases h2 : o2 = k
      · subst h2; exact absurd rfl ho2
      · simp [h2]
    · simp only [bSetTarget, if_neg hk] at h
      cases hst : bSetTarget rest o br with
      | error e => rw [hst] at h; cases h
      | ok rest2 =>
        rw [hst] at h
        cases h
        obtain ⟨⟨od1, hod1, hod2⟩, hne⟩ := ih hst
        constructor
        · refine ⟨od1, ?_, ?_⟩
          · simp only [bLookup, if_neg (Ne.symm hk)]
            exact hod1
          · simp only [bLookup, if_neg (Ne.symm hk)]
            exact hod2
        · intro o2 ho2
          by_cases h2 : o2 = k
          · subst h2; simp [bLookup]
          · simp only [bLookup, if_neg h2]
            exact hne o2 ho2

theorem pass2_lookup_of_not_mem {blocks : List Block}
    {unp : List (Nat × BranchTarget LabelKind)} {ops ops2 : List (Nat × OperatorData)}
    (h : pass2 blocks unp ops = .ok ops2) {o : Nat} (ho : ∀ p ∈ unp, p.1 ≠ o) :
    bLookup ops2 o = bLookup ops o := by
  induction unp generalizing ops with
  | nil => cases h; rfl
  | cons p rest ih =>
    obtain ⟨k, ub⟩ := p
    simp only [pass2] at h
    cases hpb : patchBranch blocks ub with
    | error e => rw [hpb] at h; cases h
    | ok branch =>
      rw [hpb] at h
      simp only [] at h
      cases hset : bSetTarget ops k branch with
      | error e => rw [hset] at h; cases h
      | ok ops1 =>
        rw [hset] at h
        simp only [] at h
        have h1 : bLookup ops1 o = bLookup ops o :=
          (bSetTarget_ok hset).2 o
            (fun hc => ho (k, ub) (List.mem_cons_self _ _) (by simpa using hc.symm))
        have h2 := ih h (fun p hp => ho p (List.mem_cons_of_mem _ hp))
        exact h2.trans h1

theorem pass2_target_set {blocks : List Block}
    {unp : List (Nat × BranchTarget LabelKind)} {ops ops2 : List (Nat × OperatorData)}
    (h : pass2 blocks unp ops = .ok ops2) (hs : keysSorted unp)
    {o : Nat} {bt : BranchTarget LabelKind} (hm : (o, bt) ∈ unp) :
    ∃ rbt od, patchBranch blocks bt = .ok rbt ∧
      bLookup ops2 o = some od ∧ od.target = some rbt := by
  induction unp generalizing ops with
  | nil => simp at hm
  | cons p rest ih =>
    obtain ⟨k, ub⟩ := p
    simp only [pass2] at h
    cases hpb : patchBranch blocks ub with
    | error e => rw [hpb] at h; cases h
    | ok branch =>
      rw [hpb] at h
      simp only [] at h
      cases hset : bSetTarget ops k branch with
      | error e => rw [hset] at h; cases h
      | ok ops1 =>
        rw [hset] at h
        simp only [] at h
        rcases List.mem_cons.mp hm with he | hr
        · rw [Prod.mk.injEq] at he
          obtain ⟨ho, hbt⟩ := he
          subst ho
          subst hbt
          obtain ⟨⟨od0, _, hod0⟩, _⟩ := bSetTarget_ok hset
          have hrest : bLookup ops2 o = bLookup ops1 o :=
            pass2_lookup_of_not_mem h
              (fun p hp => by
                have := keysSorted_head_lt hs p hp
                omega)
          exact ⟨branch, _, hpb, hrest.trans hod0, rfl⟩
        · exact ih h (keysSorted_tail hs) hr

theorem pass2_map_sizes {blocks : List Block}
    {unp : List (Nat × BranchTarget LabelKind)} {ops ops2 : List (Nat × OperatorData)}
    (h : pass2 blocks unp ops = .ok ops2) :
    ops2.map (fun p => (p.1, p.2.size)) = ops.map (fun p => (p.1, p.2.size)) := by
  induction unp generalizing ops with
  | nil => cases h; rfl
  | cons p rest ih =>
    obtain ⟨k, ub⟩ := p
    simp only [pass2] at h
    cases hpb : patchBranch blocks ub with
    | error e => rw [hpb] at h; cases h
    | ok branch =>
      rw [hpb] at h
      simp only [] at h
      cases hset : bSetTarget ops k branch with
      | error e => rw [hset] at h; cases h
      | ok ops1 =>
        rw [hset] at h
        simp only [] at h
        have h1 : ops1.map (fun p => (p.1, p.2.size)) = ops.map (fun p => (p.1, p.2.size)) := by
          clear h ih
          induction ops generalizing ops1 with
          | nil => simp [bSetTarget] at hset
          | cons q qrest qih =>
            obtain ⟨k1, od1⟩ := q
            by_cases hk1 : k1 = k
            · subst hk1
              simp only [bSetTarget, if_pos rfl] at hset
              cases hset
              simp
            · simp only [bSetTarget, if_neg hk1] at hset
              cases hset2 : bSetTarget qrest k branch with
              | error e => rw [hset2] at hset; cases hset
              | ok qrest2 =>
                rw [hset2] at hset
                cases hset
                simp only [List.map_cons, List.cons.injEq, true_and]
                exact qih _ hset2
        exact (ih h).trans h1

/-! ## `patch_label` characterizations -/

theorem patch_label_break {blocks : List Block} {bid : Nat} {a : Nat}
    (h : patch_label blocks (.break_ bid) = .ok a) :
    ∃ b, blocks[bid]? = some b ∧
      ((b.kind = .loop ∧ a = b.start) ∨ (b.kind ≠ .loop ∧ b.after = some a)) := by
  simp only [patch_label] at h
  cases hblk : blocks[bid]? with
  | none => rw [hblk] at h; cases h
  | some b =>
    rw [hblk] at h
    simp only [] at h
    by_cases hk : b.kind = .loop
    · rw [if_pos hk] at h
      cases h
      exact ⟨b, rfl, Or.inl ⟨hk, rfl⟩⟩
    · rw [if_neg hk] at h
      cases hafter : b.after with
      | none => rw [hafter] at h; cases h
      | some x =>
        rw [hafter] at h
        cases h
        exact ⟨b, rfl, Or.inr ⟨hk, hafter⟩⟩

theorem patch_label_after {blocks : List Block} {bid : Nat} {a : Nat}
    (h : patch_label blocks (.after bid) = .ok a) :
    ∃ b, blocks[bid]? = some b ∧ b.after = some a := by
  simp only [patch_label] at h
  cases hblk : blocks[bid]? with
  | none => rw [hblk] at h; cases h
  | some b =>
    rw [hblk] at h
    simp only [] at h
    cases hafter : b.after with
    | none => rw [hafter] at h; cases h
    | some x =>
      rw [hafter] at h
      cases h
      exact ⟨b, rfl, hafter⟩

theorem patch_label_else {blocks : List Block} {bid : Nat} {a : Nat}
    (h : patch_label blocks (.else_ bid) = .ok a) :
    ∃ b, blocks[bid]? = some b ∧
      ((∃ es, b.kind = .ifElse es ∧ a = es) ∨
       ((∀ es, b.kind ≠ .ifElse es) ∧ b.after = some a)) := by
  simp only [patch_label] at h
  cases hblk : blocks[bid]? with
  | none => rw [hblk] at h; cases h
  | some b =>
    rw [hblk] at h
    simp only [] at h
    cases hkind : b.kind
    case ifElse =>
      rename_i es
      rw [hkind] at h
      simp only [] at h
      cases h
      exact ⟨b, rfl, Or.inl ⟨_, hkind, rfl⟩⟩
    all_goals
      rw [hkind] at h
      simp only [] at h
      cases hafter : b.after with
      | none => rw [hafter] at h; cases h
      | some x =>
        rw [hafter] at h
        cases h
        exact ⟨b, rfl, Or.inr ⟨fun es hc => absurd (hkind.symm.trans hc) (by simp), hafter⟩⟩

/-! ## `mapM` helpers for `Except` -/

theorem mapM_ok_of_mem {α β : Type} {f : α → Except Unit β} {xs : List α}
    {ys : List β} (h : xs.mapM f = .ok ys) {x : α} (hx : x ∈ xs) :
    ∃ y, f x = .ok y := by
  induction xs generalizing ys with
  | nil => simp at hx
  | cons a rest ih =>
    rw [List.mapM_cons] at h
    cases hfa : f a with
    | error e =>
      rw [hfa] at h
      simp only [Bind.bind, Except.bind] at h
      cases h
    | ok y =>
      rw [hfa] at h
      simp only [Bind.bind, Except.bind] at h
      cases hrest : rest.mapM f with
      | error e =>
        rw [hrest] at h
        simp only [] at h
        cases h
      | ok ys2 =>
        rcases List.mem_cons.mp hx with he | hr
        · subst he; exact ⟨y, hfa⟩
        · exact ih hrest hr

theorem mapM_error_of_mem {α β : Type} {f : α → Except Unit β} {xs : List α}
    {x : α} (hx : x ∈ xs) (hfx : f x = .error ()) :
    xs.mapM f = (.error () : Except Unit (List β)) := by
  induction xs with
  | nil => simp at hx
  | cons a rest ih =>
    rw [List.mapM_cons]
    rcases List.mem_cons.mp hx with he | hr
    · subst he
      rw [hfx]
      rfl
    · cases hfa : f a with
      | error e => cases e; rfl
      | ok y =>
        simp only [Bind.bind, Except.bind, ih hr]

theorem patchBranch_label_ok {blocks : List Block} {bt : BranchTarget LabelKind}
    {rbt : BranchTarget Nat} (h : patchBranch blocks bt = .ok rbt)
    {l : LabelKind} (hl : l ∈ labelsOf bt) : ∃ a, patch_label blocks l = .ok a := by
  cases bt with
  | unconditional l0 =>
    simp only [labelsOf, List.mem_singleton] at hl
    subst hl
    simp only [patchBranch] at h
    cases hp : patch_label blocks l with
    | error e => rw [hp] at h; cases h
    | ok a => exact ⟨a, rfl⟩
  | conditional t f =>
    simp [labelsOf] at hl
    simp only [patchBranch] at h
    cases hpt : patch_label blocks t with
    | error e => rw [hpt] at h; cases h
    | ok ta =>
      rw [hpt] at h
      cases hpf : patch_label blocks f with
      | error e => rw [hpf] at h; cases h
      | ok fa =>
        rcases hl with he | he
        · subst he; exact ⟨ta, hpt⟩
        · subst he; exact ⟨fa, hpf⟩
  | table ts d =>
    simp [labelsOf] at hl
    simp only [patchBranch] at h
    cases hpts : ts.mapM (patch_label blocks) with
    | error e => rw [hpts] at h; cases h
    | ok tas =>
      rw [hpts] at h
      cases hpd : patch_label blocks d with
      | error e => rw [hpd] at h; cases h
      | ok da =>
        rcases hl with hts | he
        · exact mapM_ok_of_mem hpts hts
        · subst he; exact ⟨da, hpd⟩
  | functionEnd => simp [labelsOf] at hl

/-! ## Tiling lemmas -/

theorem tiles_append {a b s : Nat} {l : List (Nat × Nat)} (h : tiles a b l = true) :
    tiles a (b + s) (l ++ [(b, s)]) = true := by
  induction l generalizing a with
  | nil =>
    simp only [tiles, beq_iff_eq] at h
    subst h
    simp [tiles]
  | cons p rest ih =>
    obtain ⟨o, s1⟩ := p
    simp only [tiles, Bool.and_eq_true, beq_iff_eq] at h
    obtain ⟨ho, hrest⟩ := h
    simp only [List.cons_append, tiles, Bool.and_eq_true, beq_iff_eq]
    exact ⟨ho, ih hrest⟩

theorem step_ops_tiles {st : Pass1State} {i : Insn} {st2 : Pass1State}
    (h : step st i = .ok st2) (hB : Bounded st) {base : Nat}
    (ht : tiles base st.offset (st.ops.map (fun p => (p.1, p.2.size))) = true) :
    tiles base st2.offset (st2.ops.map (fun p => (p.1, p.2.size))) = true := by
  obtain ⟨hoff, hops⟩ := step_offset_ops h
  rw [hoff, hops, bInsert_eq_append hB.1, List.map_append]
  exact tiles_append ht

theorem pass1_ops_tiles {L : List Insn} {st0 st : Pass1State}
    (h : pass1 st0 L = .ok st) (hpos : ∀ x ∈ L, 0 < x.size) (hB : Bounded st0)
    {base : Nat}
    (ht : tiles base st0.offset (st0.ops.map (fun p => (p.1, p.2.size))) = true) :
    tiles base st.offset (st.ops.map (fun p => (p.1, p.2.size))) = true := by
  induction L generalizing st0 with
  | nil => cases h; exact ht
  | cons i rest ih =>
    simp only [pass1] at h
    cases hstep : step st0 i with
    | error e => rw [hstep] at h; cases h
    | ok st1 =>
      rw [hstep] at h
      exact ih h (fun x hx => hpos x (List.mem_cons_of_mem _ hx))
        (step_bounded hstep (hpos i (List.mem_cons_self _ _)) hB)
        (step_ops_tiles hstep hB ht)

/-! ## `get_nth_block_id` overflow -/

theorem get_nth_block_id_overflow {blockStack : List Nat} {n : Nat}
    (hlen : blockStack.length ≤ n) (hn : n < 2 ^ 32) :
    get_nth_block_id blockStack n = .error () := by
  have h64 : U64 = 18446744073709551616 := by norm_num [U64]
  have h32 : (2 : Nat) ^ 32 = 4294967296 := by norm_num
  unfold get_nth_block_id
  have hexp : blockStack.length + U64 - (n + 1) =
      blockStack.length + (U64 - (n + 1)) := by omega
  have hidx : (blockStack.length + U64 - (n + 1)) % U64 =
      blockStack.length + (U64 - (n + 1)) := by
    rw [hexp]
    apply Nat.mod_eq_of_lt
    omega
  rw [hidx, List.getElem?_eq_none (by omega)]

theorem step_br_error {st : Pass1State} {i : Insn} {d : Nat}
    (hbad : get_nth_block_id st.blockStack d = .error ())
    (hop : i.op = .brOp d ∨ i.op = .brIfOp d ∨
      (∃ ts dd, i.op = .brTableOp ts dd ∧ (d ∈ ts ∨ d = dd))) :
    step st i = .error () := by
  rcases hop with hop | hop | ⟨ts, dd, hop, hd⟩
  · simp [step, hop, hbad]
  · simp [step, hop, hbad]
  · simp only [step, hop]
    rcases hd with hmem | hdd
    · have hts : ts.mapM
          (fun t => (get_nth_block_id st.blockStack t).map LabelKind.break_) =
          .error () :=
        mapM_error_of_mem hmem (by rw [hbad]; rfl)
      rw [hts]
    · subst hdd
      cases hts : ts.mapM
          (fun t => (get_nth_block_id st.blockStack t).map LabelKind.break_) with
      | error e => rfl
      | ok labels =>
        simp only []
        rw [hbad]

/-! ## C1 -/

theorem initState_kind_function (ops_start : Nat) {bid : Nat} {b : Block}
    (hb : (initState ops_start).blocks[bid]? = some b) : b.kind = .function := by
  match bid, hb with
  | 0, hb =>
    simp [initState] at hb
    rw [← hb]

/-- C1: for every function decoded by `parse_func`, every `br`/`br_if`/
`br_table` label deferred as a `Break` target in pass 1 is resolved by pass 2
to the referenced block's `start` when the block's kind is `Loop`, and
otherwise (`Normal`, `Function`, `If`, `IfElse`) to the address immediately
after the `end` operator that popped — i.e. matched — that block; the patched
branch is stored on the recorded instruction at the branch's offset. -/
theorem c1_break_target_resolution (ss ls ll : Nat) (insns : List Insn)
    (fd : FunctionData) (st : Pass1State)
    (hok : parse_func ss ls ll insns = .ok fd)
    (hst : pass1 (initState (ls + ll)) insns = .ok st)
    (o : Nat) (bt : BranchTarget LabelKind) (hmem : (o, bt) ∈ st.unpatched)
    (bid : Nat) (hl : LabelKind.break_ bid ∈ labelsOf bt) :
    ∃ b a, st.blocks[bid]? = some b ∧
      patch_label st.blocks (.break_ bid) = .ok a ∧
      (∃ rbt od, patchBranch st.blocks bt = .ok rbt ∧
        bLookup fd.ops o = some od ∧ od.target = some rbt) ∧
      ((b.kind = .loop ∧ a = b.start) ∨
       (b.kind ≠ .loop ∧ b.after = some a ∧ EndProv (ls + ll) insns bid a)) := by
  unfold parse_func at hok
  rw [hst] at hok
  simp only [] at hok
  cases hp2 : pass2 st.blocks st.unpatched st.ops with
  | error e => rw [hp2] at hok; cases hok
  | ok ops =>
    rw [hp2] at hok
    simp only [] at hok
    cases hok
    have hs : keysSorted st.unpatched := pass1_sorted hst (initState_sorted _)
    obtain ⟨rbt, od, hpb, hlook, htar⟩ := pass2_target_set hp2 hs hmem
    obtain ⟨a, hpl⟩ := patchBranch_label_ok hpb hl
    obtain ⟨b, hb, hcases⟩ := patch_label_break hpl
    refine ⟨b, a, hb, hpl, ⟨rbt, od, hpb, hlook, htar⟩, ?_⟩
    rcases hcases with ⟨hloop, ha⟩ | ⟨hnl, hafter⟩
    · exact Or.inl ⟨hloop, ha⟩
    · refine Or.inr ⟨hnl, hafter, ?_⟩
      rcases pass1_after_src hst hb hafter with ⟨b0, hb0, ha0⟩ | hprov
      · rw [initState_after_none _ hb0] at ha0
        cases ha0
      · exact hprov

/-- Witness for C1: in `block; br 0; end; end` the `br 0` target is deferred
as a break into the `block` (id 1, kind Normal) and resolves to offset 6, the
address right after the block's matching `end` at offset 5. -/
theorem c1_break_target_resolution_witness :
    ∃ b a, exBrSt.blocks[1]? = some b ∧
      patch_label exBrSt.blocks (.break_ 1) = .ok a ∧
      (∃ rbt od,
        patchBranch exBrSt.blocks (.unconditional (.break_ 1)) = .ok rbt ∧
        bLookup exBrFd.ops 3 = some od ∧ od.target = some rbt) ∧
      ((b.kind = .loop ∧ a = b.start) ∨
       (b.kind ≠ .loop ∧ b.after = some a ∧ EndProv 2 exBrInsns 1 a)) :=
  c1_break_target_resolution 0 1 1 exBrInsns exBrFd exBrSt rfl rfl
    3 (.unconditional (.break_ 1)) (by decide) 1 (by decide)

/-! ## C3 -/

/-- C3: for every function `parse_func` decodes, the recorded instructions
are contiguous — they tile `[ops_start, end)` exactly (first offset is
`ops_start`, each offset plus its length is the next offset, the last reaches
`end`)—and together with the two structural pseudo-instructions
`[size_start, locals_start)` and `[locals_start, ops_start)` they tile
`[size_start, end)` with no gaps or overlaps. -/
theorem c3_instruction_tiling (ss ls ll : Nat) (insns : List Insn)
    (fd : FunctionData) (hok : parse_func ss ls ll insns = .ok fd)
    (hpos : ∀ x ∈ insns, 0 < x.size) (hle : ss ≤ ls) :
    tiles fd.ops_start fd.end_ (fd.ops.map (fun p => (p.1, p.2.size))) = true ∧
    tiles ss fd.end_ ((ss, ls - ss) :: (ls, fd.ops_start - ls) ::
      fd.ops.map (fun p => (p.1, p.2.size))) = true ∧
    fd.size_start = ss ∧ fd.locals_start = ls ∧ fd.ops_start = ls + ll := by
  unfold parse_func at hok
  cases hst : pass1 (initState (ls + ll)) insns with
  | error e => rw [hst] at hok; cases hok
  | ok st =>
    rw [hst] at hok
    simp only [] at hok
    cases hp2 : pass2 st.blocks st.unpatched st.ops with
    | error e => rw [hp2] at hok; cases hok
    | ok ops =>
      rw [hp2] at hok
      simp only [] at hok
      cases hok
      have hsizes := pass2_map_sizes hp2
      have htile : tiles (ls + ll) st.offset
          (st.ops.map (fun p => (p.1, p.2.size))) = true :=
        pass1_ops_tiles hst hpos (initState_bounded _) (by simp [initState, tiles])
      simp only []
      rw [hsizes]
      refine ⟨htile, ?_, by trivial, by trivial, by trivial⟩
      have h1 : ss + (ls - ss) = ls := by omega
      have h2 : ls + (ls + ll - ls) = ls + ll := by omega
      simp only [tiles, h1, h2, beq_self_eq_true, Bool.true_and]
      exact htile

/-- Witness for C3 on `block; br 0; end; end` with a 1-byte size field and a
1-byte locals vector: ranges `[0,1) [1,2) [2,3) [3,5) [5,6) [6,7)` tile
`[0,7)`. -/
theorem c3_instruction_tiling_witness :
    tiles exBrFd.ops_start exBrFd.end_
      (exBrFd.ops.map (fun p => (p.1, p.2.size))) = true ∧
    tiles 0 exBrFd.end_ ((0, 1 - 0) :: (1, exBrFd.ops_start - 1) ::
      exBrFd.ops.map (fun p => (p.1, p.2.size))) = true ∧
    exBrFd.size_start = 0 ∧ exBrFd.locals_start = 1 ∧ exBrFd.ops_start = 1 + 1 :=
  c3_instruction_tiling 0 1 1 exBrInsns exBrFd rfl (by decide) (by decide)

/-! ## C7 -/

/-- C7: a `br`, `br_if`, or `br_table` operand whose relative depth is at
least the number of currently-open scopes makes `parse_func` return an error
for the whole function (the depth is a `u32`; the wrapped `usize` index always
misses the stack). -/
theorem c7_depth_overflow (ss ls ll : Nat) (pre : List Insn) (i : Insn)
    (post : List Insn) (st : Pass1State)
    (hpre : pass1 (initState (ls + ll)) pre = .ok st)
    (d : Nat) (hd : st.blockStack.length ≤ d) (hd32 : d < 2 ^ 32)
    (hop : i.op = .brOp d ∨ i.op = .brIfOp d ∨
      (∃ ts dd, i.op = .brTableOp ts dd ∧ (d ∈ ts ∨ d = dd))) :
    parse_func ss ls ll (pre ++ i :: post) = .error () := by
  have hbad := get_nth_block_id_overflow hd hd32
  have hstep := step_br_error hbad hop
  unfold parse_func
  rw [pass1_append, hpre]
  simp only [pass1, hstep]

/-- Witness for C7: `br 1` with only the implicit function scope open aborts
decoding. -/
theorem c7_depth_overflow_witness :
    pass1 (initState (1 + 0)) [] = .ok (initState (1 + 0)) ∧
    (initState (1 + 0)).blockStack.length ≤ 1 ∧ (1 : Nat) < 2 ^ 32 ∧
    parse_func 0 1 0 ([] ++ ⟨.brOp 1, 2⟩ :: []) = .error () :=
  ⟨rfl, by decide, by norm_num,
    c7_depth_overflow 0 1 0 [] ⟨.brOp 1, 2⟩ [] (initState (1 + 0)) rfl
      1 (by decide) (by norm_num) (Or.inl rfl)⟩

/-! ## C2 -/

/-- C2: in every function decoded by `parse_func`, an `if` instruction gets a
`Conditional` target whose true edge is the offset of the next instruction;
the false edge is the deferred `Else` label of the block the `if` pushed.  If
a matching `else` later appears (the block's final kind is `IfElse`), the
false edge resolves to `else_start`, the offset immediately after that `else`
opcode, and the `else` instruction's own `Unconditional` edge resolves to the
block's address-after (the offset just past the matching `end`); if no `else`
ever appears (final kind still `If`), the false edge resolves to the block's
address-after. -/
theorem c2_if_else_resolution (ss ls ll : Nat) (pre : List Insn) (i : Insn)
    (post : List Insn) (fd : FunctionData) (st stPre : Pass1State)
    (hok : parse_func ss ls ll (pre ++ i :: post) = .ok fd)
    (hst : pass1 (initState (ls + ll)) (pre ++ i :: post) = .ok st)
    (hpre : pass1 (initState (ls + ll)) pre = .ok stPre)
    (hop : i.op = .ifOp)
    (hpos : ∀ x ∈ pre ++ i :: post, 0 < x.size) :
    ∃ b, st.blocks[stPre.blocks.length]? = some b ∧ b.start = stPre.offset ∧
      (stPre.offset, BranchTarget.conditional
        (LabelKind.resolved (stPre.offset + i.size))
        (LabelKind.else_ stPre.blocks.length)) ∈ st.unpatched ∧
      (∃ rbt od, patchBranch st.blocks (.conditional
          (.resolved (stPre.offset + i.size)) (.else_ stPre.blocks.length)) = .ok rbt ∧
        bLookup fd.ops stPre.offset = some od ∧ od.target = some rbt) ∧
      patch_label st.blocks (.resolved (stPre.offset + i.size)) =
        .ok (stPre.offset + i.size) ∧
      ∃ f, patch_label st.blocks (.else_ stPre.blocks.length) = .ok f ∧
        ((∃ es, b.kind = .ifElse es ∧ f = es ∧
           ∃ pre2 e2 post2 stPre2, pre ++ i :: post = pre2 ++ e2 :: post2 ∧
             pass1 (initState (ls + ll)) pre2 = .ok stPre2 ∧ e2.op = .elseOp ∧
             stPre2.blockStack.getLast? = some stPre.blocks.length ∧
             es = stPre2.offset + e2.size ∧
             (stPre2.offset, BranchTarget.unconditional
               (LabelKind.after stPre.blocks.length)) ∈ st.unpatched ∧
             ∃ ea, patch_label st.blocks (.after stPre.blocks.length) = .ok ea ∧
               b.after = some ea ∧
               EndProv (ls + ll) (pre ++ i :: post) stPre.blocks.length ea) ∨
         (b.kind = .if_ ∧ b.after = some f ∧
           EndProv (ls + ll) (pre ++ i :: post) stPre.blocks.length f)) := by
  have hrun := hst
  rw [pass1_append, hpre] at hrun
  simp only [] at hrun
  simp only [pass1] at hrun
  have hstepE : ∃ st1, step stPre i = .ok st1 ∧ pass1 st1 post = .ok st := by
    cases hs2 : step stPre i with
    | error e => rw [hs2] at hrun; cases hrun
    | ok st1 => rw [hs2] at hrun; exact ⟨st1, rfl, hrun⟩
  obtain ⟨st1, hstep, hrun1⟩ := hstepE
  obtain ⟨hunp1, hblocks1⟩ := step_if_emit hstep hop
  have hposPre : ∀ x ∈ pre, 0 < x.size := fun x hx => hpos x (by simp [hx])
  have hposPost : ∀ x ∈ post, 0 < x.size := fun x hx => hpos x (by simp [hx])
  have hBpre : Bounded stPre := pass1_bounded hpre hposPre (initState_bounded _)
  have hB1 : Bounded st1 := step_bounded hstep (hpos i (by simp)) hBpre
  have hmemCond : (stPre.offset, BranchTarget.conditional
      (LabelKind.resolved (stPre.offset + i.size))
      (LabelKind.else_ stPre.blocks.length)) ∈ st.unpatched := by
    apply pass1_unpatched_mem hrun1 hposPost hB1
    rw [hunp1]
    exact mem_bInsert_self _ _ _
  have hb1 : st1.blocks[stPre.blocks.length]? = some ⟨stPre.offset, none, .if_⟩ := by
    rw [hblocks1]
    exact List.getElem?_concat_length _ _
  obtain ⟨b, hb, hstart, hkindp⟩ := pass1_block_persist hrun1 hb1
  unfold parse_func at hok
  rw [hst] at hok
  simp only [] at hok
  have hp2E : ∃ ops, pass2 st.blocks st.unpatched st.ops = .ok ops ∧
      fd = ⟨ss, ls, ls + ll, st.offset, ops⟩ := by
    cases hp : pass2 st.blocks st.unpatched st.ops with
    | error e => rw [hp] at hok; cases hok
    | ok ops =>
      rw [hp] at hok
      simp only [] at hok
      cases hok
      exact ⟨ops, rfl, rfl⟩
  obtain ⟨ops, hp2, hfd⟩ := hp2E
  subst hfd
  have hs : keysSorted st.unpatched := pass1_sorted hst (initState_sorted _)
  obtain ⟨rbt, od, hpb, hlook, htar⟩ := pass2_target_set hp2 hs hmemCond
  have hlel : LabelKind.else_ stPre.blocks.length ∈ labelsOf
      (BranchTarget.conditional (LabelKind.resolved (stPre.offset + i.size))
        (LabelKind.else_ stPre.blocks.length)) := by simp [labelsOf]
  obtain ⟨f, hpf⟩ := patchBranch_label_ok hpb hlel
  obtain ⟨b2, hb2, hcasesE⟩ := patch_label_else hpf
  rw [hb] at hb2
  cases hb2
  refine ⟨b, hb, hstart, hmemCond, ⟨rbt, od, hpb, hlook, htar⟩, rfl, f, hpf, ?_⟩
  rcases hcasesE with ⟨es, hkE, hfE⟩ | ⟨hnoE, hafterE⟩
  · left
    refine ⟨es, hkE, hfE, ?_⟩
    rcases pass1_ifElse_src hst hb hkE with ⟨b0, hb0, hk0⟩ |
      ⟨pre2, e2, post2, stPre2, hL2, hpre2, hope2, hlast2, hes2⟩
    · rw [initState_kind_function _ hb0] at hk0
      cases hk0
    · refine ⟨pre2, e2, post2, stPre2, hL2, hpre2, hope2, hlast2, hes2, ?_⟩
      have hrun2 := hst
      rw [hL2, pass1_append, hpre2] at hrun2
      simp only [] at hrun2
      simp only [pass1] at hrun2
      have hstepE2 : ∃ stE, step stPre2 e2 = .ok stE ∧ pass1 stE post2 = .ok st := by
        cases hs2 : step stPre2 e2 with
        | error e => rw [hs2] at hrun2; cases hrun2
        | ok stE => rw [hs2] at hrun2; exact ⟨stE, rfl, hrun2⟩
      obtain ⟨stE, hstep2, hrun3⟩ := hstepE2
      obtain ⟨bid2, bIf, hlastE, hblkE, hkindE, hunpE⟩ := step_else_emit hstep2 hope2
      rw [hlast2] at hlastE
      cases hlastE
      have hposPre2 : ∀ x ∈ pre2, 0 < x.size := fun x hx =>
        hpos x (by rw [hL2]; simp [hx])
      have hposPost2 : ∀ x ∈ post2, 0 < x.size := fun x hx =>
        hpos x (by rw [hL2]; simp [hx])
      have hBpre2 : Bounded stPre2 := pass1_bounded hpre2 hposPre2 (initState_bounded _)
      have hBE : Bounded stE := step_bounded hstep2 (hpos e2 (by rw [hL2]; simp)) hBpre2
      have hmemElse : (stPre2.offset, BranchTarget.unconditional
          (LabelKind.after stPre.blocks.length)) ∈ st.unpatched := by
        apply pass1_unpatched_mem hrun3 hposPost2 hBE
        rw [hunpE]
        exact mem_bInsert_self _ _ _
      obtain ⟨rbt2, od2, hpb2, hlook2, htar2⟩ := pass2_target_set hp2 hs hmemElse
      have hlea : LabelKind.after stPre.blocks.length ∈ labelsOf
          (BranchTarget.unconditional (LabelKind.after stPre.blocks.length)) := by
        simp [labelsOf]
      obtain ⟨ea, hpa⟩ := patchBranch_label_ok hpb2 hlea
      obtain ⟨b3, hb3, hafter3⟩ := patch_label_after hpa
      rw [hb] at hb3
      cases hb3
      refine ⟨hmemElse, ea, hpa, hafter3, ?_⟩
      rcases pass1_after_src hst hb hafter3 with ⟨b0, hb0, ha0⟩ | hprov
      · rw [initState_after_none _ hb0] at ha0
        cases ha0
      · exact hprov
  · right
    have hkIf : b.kind = .if_ := by
      rcases hkindp with hk | ⟨_, es, hk⟩
      · exact hk
      · exact absurd hk (hnoE es)
    refine ⟨hkIf, hafterE, ?_⟩
    rcases pass1_after_src hst hb hafterE with ⟨b0, hb0, ha0⟩ | hprov
    · rw [initState_after_none _ hb0] at ha0
      cases ha0
    · exact hprov

/-- Witness for C2 on `if; other; else; other; end; end`: the `if` at offset 2
pushes block 1; its true edge is 3, its false edge resolves to 5 (the offset
after the `else` at 4), and the `else` instruction's edge resolves to 7, the
offset after the matching `end` at 6. -/
theorem c2_if_else_resolution_witness :
    (∀ x ∈ exIfInsns, 0 < x.size) ∧
    ∃ b, exIfSt.blocks[(initState 2).blocks.length]? = some b ∧
      b.start = (initState 2).offset ∧
      ((initState 2).offset, BranchTarget.conditional
        (LabelKind.resolved ((initState 2).offset + (⟨.ifOp, 1⟩ : Insn).size))
        (LabelKind.else_ (initState 2).blocks.length)) ∈ exIfSt.unpatched ∧
      (∃ rbt od, patchBranch exIfSt.blocks (.conditional
          (.resolved ((initState 2).offset + (⟨.ifOp, 1⟩ : Insn).size))
          (.else_ (initState 2).blocks.length)) = .ok rbt ∧
        bLookup exIfFd.ops (initState 2).offset = some od ∧ od.target = some rbt) ∧
      patch_label exIfSt.blocks (.resolved ((initState 2).offset + (⟨.ifOp, 1⟩ : Insn).size)) =
        .ok ((initState 2).offset + (⟨.ifOp, 1⟩ : Insn).size) ∧
      ∃ f, patch_label exIfSt.blocks (.else_ (initState 2).blocks.length) = .ok f ∧
        ((∃ es, b.kind = .ifElse es ∧ f = es ∧
           ∃ pre2 e2 post2 stPre2, exIfInsns = pre2 ++ e2 :: post2 ∧
             pass1 (initState (1 + 1)) pre2 = .ok stPre2 ∧ e2.op = .elseOp ∧
             stPre2.blockStack.getLast? = some (initState 2).blocks.length ∧
             es = stPre2.offset + e2.size ∧
             (stPre2.offset, BranchTarget.unconditional
               (LabelKind.after (initState 2).blocks.length)) ∈ exIfSt.unpatched ∧
             ∃ ea, patch_label exIfSt.blocks (.after (initState 2).blocks.length) = .ok ea ∧
               b.after = some ea ∧
               EndProv (1 + 1) exIfInsns (initState 2).blocks.length ea) ∨
         (b.kind = .if_ ∧ b.after = some f ∧
           EndProv (1 + 1) exIfInsns (initState 2).blocks.length f)) :=
  ⟨by decide,
    c2_if_else_resolution 0 1 1 [] ⟨.ifOp, 1⟩
      [⟨.otherOp, 1⟩, ⟨.elseOp, 1⟩, ⟨.otherOp, 1⟩, ⟨.endOp, 1⟩, ⟨.endOp, 1⟩]
      exIfFd exIfSt (initState 2) rfl rfl rfl rfl (by decide)⟩

/-! ## C4 -/

theorem walkEntries_append (env : WalkEnv) (l1 l2 : List CodeEntry)
    (md : ModuleData) (addr fi : Nat) :
    walkEntries env (l1 ++ l2) md addr fi =
      match walkEntries env l1 md addr fi with
      | (.error e, md2, addr2, fi2) => (.error e, md2, addr2, fi2)
      | (.ok _, md2, addr2, fi2) => walkEntries env l2 md2 addr2 fi2 := by
  induction l1 generalizing md addr fi with
  | nil => simp [walkEntries]
  | cons e1 r ih =>
    simp only [List.cons_append, walkEntries]
    cases hh : handle_code_section_entry env md addr (addr + e1.sizeLen)
        (addr + e1.sizeLen + e1.size) e1.localsLen e1.ops with
    | mk r1 md1 =>
      cases r1 with
      | error u => rfl
      | ok u =>
        simp only []
        exact ih _ _ _

/-- Amended C4: a per-function failure (entry outside a code segment, a
truncated body read, or a `parse_func` failure) does not skip just that
function — `handle_code_section_entry`'s error propagates through the `?` in
the entry loop, so the walk stops at the failing entry with an error: the
failing entry and all later entries are excluded from the function-address
list and the function-index counter does not advance past the failure. -/
theorem c4_entry_failure_aborts_walk (env : WalkEnv) (pre : List CodeEntry)
    (e : CodeEntry) (rest : List CodeEntry) (md : ModuleData) (addr fi : Nat)
    (md2 : ModuleData) (addr2 fi2 : Nat)
    (hpre : walkEntries env pre md addr fi = (.ok (), md2, addr2, fi2))
    (hfail : (handle_code_section_entry env md2 addr2 (addr2 + e.sizeLen)
        (addr2 + e.sizeLen + e.size) e.localsLen e.ops).1 = .error ()) :
    walkEntries env (pre ++ e :: rest) md addr fi =
      (.error (), (handle_code_section_entry env md2 addr2 (addr2 + e.sizeLen)
        (addr2 + e.sizeLen + e.size) e.localsLen e.ops).2, addr2, fi2) := by
  rw [walkEntries_append, hpre]
  simp only [walkEntries]
  cases hh : handle_code_section_entry env md2 addr2 (addr2 + e.sizeLen)
      (addr2 + e.sizeLen + e.size) e.localsLen e.ops with
  | mk r mdX =>
    rw [hh] at hfail
    cases r with
    | error u => cases u; rfl
    | ok u => cases hfail

/-- Counterexample to C4 as stated: with two entries whose first lies outside
any code segment, the walk does not skip the first entry and continue — it
returns an error for the whole module, and the second entry is never decoded
(the function-address list stays empty and the index counter stays 0). -/
theorem c4_counterexample :
    walkEntries exBadEnv exC4Entries ModuleData.new 11 0 =
      (.error (), ModuleData.new, 11, 0) := by
  rfl

/-- Witness for the amended C4 at the same input. -/
theorem c4_entry_failure_aborts_walk_witness :
    walkEntries exBadEnv [] ModuleData.new 11 0 = (.ok (), ModuleData.new, 11, 0) ∧
    (handle_code_section_entry exBadEnv ModuleData.new 11 (11 + 1) (11 + 1 + 2)
      1 [⟨.otherOp, 1⟩]).1 = .error () ∧
    walkEntries exBadEnv ([] ++ ⟨1, 2, 1, [⟨.otherOp, 1⟩]⟩ :: [⟨1, 2, 1, [⟨.otherOp, 1⟩]⟩])
        ModuleData.new 11 0 =
      (.error (), (handle_code_section_entry exBadEnv ModuleData.new 11 (11 + 1)
        (11 + 1 + 2) 1 [⟨.otherOp, 1⟩]).2, 11, 0) :=
  ⟨rfl, rfl,
    c4_entry_failure_aborts_walk exBadEnv [] ⟨1, 2, 1, [⟨.otherOp, 1⟩]⟩
      [⟨1, 2, 1, [⟨.otherOp, 1⟩]⟩] ModuleData.new 11 0 ModuleData.new 11 0
      rfl rfl⟩

/-! ## C5 -/

/-- C5 at the failing input: with 3 function-typed imports and 2 code entries,
the function-address list is `[11, 15]` (length 2, declaration order) — but a
`call` with declared function index 3 (the first local function) looks up
`func_addrs[3]`, which is out of range, so the query yields no call edge to
address 11 (it returns `none` altogether): `func_addrs` is indexed by
position among locally-defined functions while `call` uses the declared
index. -/
theorem c5_import_offset_divergence :
    (parse_module exEnv exC5Payloads ModuleData.new 0).1 = .ok () ∧
    exC5Md.func_addrs = [11, 15] ∧
    bLookup (getOk (parse_func 11 12 1 [⟨.callOp 3, 2⟩]) ⟨0, 0, 0, 0, []⟩).ops 13 =
      some ⟨.callOp 3, 2, none⟩ ∧
    (rangeGet exC5Md.funcs 13).isSome = true ∧
    exC5Md.func_addrs[3]? = none ∧
    _instruction_info exC5Md 13 = none :=
  ⟨rfl, rfl, rfl, rfl, rfl, rfl⟩

/-! ## C6 -/

/-- Amended C6: when the per-address query hits a `call` whose declared
function index is out of range of the function-address table, the `?` on
`func_addrs.get` propagates: the whole query returns `none` — no length, no
edges — rather than returning the instruction with the call edge omitted. -/
theorem c6_call_index_out_of_range_fails_query (md : ModuleData) (addr : Nat)
    (func : FunctionData) (op : OperatorData) (fi : Nat)
    (hget : rangeGet md.funcs addr = some func)
    (hne1 : addr ≠ func.size_start) (hne2 : addr ≠ func.locals_start)
    (hop : bLookup func.ops addr = some op) (hcall : op.op = .callOp fi)
    (hoob : md.func_addrs[fi]? = none) :
    _instruction_info md addr = none := by
  simp only [_instruction_info, hget, if_neg hne1, if_neg hne2, hop, hcall, hoob]

/-- Counterexample to C6 as stated: address 13 is a decoded `call 5`
instruction inside the resident function, the index 5 is out of range of the
one-entry address table, and the query returns `none` — not the instruction's
length and remaining edges. -/
theorem c6_counterexample :
    rangeGet exC6Md.funcs 13 = some exC6Fd ∧
    bLookup exC6Fd.ops 13 = some ⟨.callOp 5, 2, none⟩ ∧
    exC6Md.func_addrs[5]? = none ∧
    _instruction_info exC6Md 13 = none :=
  ⟨rfl, rfl, rfl, rfl⟩

/-- Witness for the amended C6 at the same input. -/
theorem c6_call_index_out_of_range_fails_query_witness :
    _instruction_info exC6Md 13 = none :=
  c6_call_index_out_of_range_fails_query exC6Md 13 exC6Fd ⟨.callOp 5, 2, none⟩ 5
    rfl (by decide) (by decide) rfl rfl rfl

/-! ## C8 -/

/-- C8: if after walking all code-section entries the computed end address
differs from the section's declared end, the whole module load fails —
`parse_module` returns an error, regardless of the remaining payloads. -/
theorem c8_boundary_mismatch_fatal (env : WalkEnv) (rs re cl : Nat)
    (entries : List CodeEntry) (md md2 : ModuleData) (fi addr2 fi2 : Nat)
    (rest : List Payload)
    (hwalk : walkEntries env entries md (rs + cl) fi = (.ok (), md2, addr2, fi2))
    (hne : addr2 ≠ re) :
    (parse_module env (Payload.codeSection rs re cl entries :: rest) md fi).1 =
      .error () := by
  simp only [parse_module, handle_code_section, hwalk, if_pos hne]

/-- Witness for C8: an empty entry list ends the walk at address 1, but the
declared section end is 5. -/
theorem c8_boundary_mismatch_fatal_witness :
    walkEntries exEnv [] ModuleData.new (0 + 1) 0 =
      (.ok (), ModuleData.new, 1, 0) ∧
    (parse_module exEnv (Payload.codeSection 0 5 1 [] :: []) ModuleData.new 0).1 =
      .error () :=
  ⟨rfl,
    c8_boundary_mismatch_fatal exEnv 0 5 1 [] ModuleData.new ModuleData.new 0 1 0 []
      rfl (by decide)⟩

/-! ## C9 -/

/-- C9: once a module is resident (and the first-call shortcut has passed),
`init` refuses to open a second module: it returns an error, flips nothing,
and leaves the resident module data — its function map and function-address
list — exactly as it was. -/
theorem c9_second_open_rejected (md : ModuleData) (env : WalkEnv)
    (payloads : List Payload) :
    init true (some md) env payloads = (.error (), true, some md) := by
  rfl

/-! ## C10 -/

theorem lor_mul_two_pow {a z k : Nat} (h : a < 2 ^ k) :
    a ||| z * 2 ^ k = a + z * 2 ^ k := by
  apply Nat.eq_of_testBit_eq
  intro j
  rcases Nat.lt_or_ge j k with hj | hj
  · have hz : (z * 2 ^ k).testBit j = false := by
      rw [← Nat.shiftLeft_eq, Nat.testBit_shiftLeft]
      simp [Nat.not_le.mpr hj]
    have hmod : (a + z * 2 ^ k) % 2 ^ k = a := by
      rw [Nat.add_mul_mod_self_right, Nat.mod_eq_of_lt h]
    have hr : (a + z * 2 ^ k).testBit j = a.testBit j := by
      have h2 := Nat.testBit_mod_two_pow (a + z * 2 ^ k) k j
      rw [hmod] at h2
      simp only [hj, decide_True, Bool.true_and] at h2
      exact h2.symm
    rw [Nat.testBit_lor, hz, hr, Bool.or_false]
  · have ha : a.testBit j = false :=
      Nat.testBit_lt_two_pow
        (lt_of_lt_of_le h (Nat.pow_le_pow_right (by norm_num) hj))
    have hdiv : (a + z * 2 ^ k) / 2 ^ k = z := by
      rw [Nat.add_mul_div_right _ _ (Nat.two_pow_pos k), Nat.div_eq_of_lt h,
        Nat.zero_add]
    have hr : (a + z * 2 ^ k).testBit j = z.testBit (j - k) := by
      have h1 : (a + z * 2 ^ k).testBit j =
          ((a + z * 2 ^ k) >>> k).testBit (j - k) := by
        rw [Nat.testBit_shiftRight]
        congr 1
        omega
      rw [h1, Nat.shiftRight_eq_div_pow, hdiv]
    have hz : (z * 2 ^ k).testBit j = z.testBit (j - k) := by
      rw [← Nat.shiftLeft_eq, Nat.testBit_shiftLeft]
      simp [hj]
    rw [Nat.testBit_lor, ha, hz, hr, Bool.false_or]

theorem and_byte_low (b : Nat) : b &&& 127 = b % 128 := by
  have h := Nat.and_pow_two_sub_one_eq_mod b 7
  norm_num at h
  exact h

/-- Accumulating the final byte (continuation bit clear): the `u32` or-shift
equals adding the byte's low 7 bits at the right weight, modulo 2^32. -/
theorem leb_byte_step {result b s : Nat} (hs : s ≤ 28) (hres : result < 2 ^ s) :
    result ||| ((b &&& 127) <<< s) % 2 ^ 32 =
      (result + b % 128 * 2 ^ s) % 2 ^ 32 := by
  rw [and_byte_low, Nat.shiftLeft_eq]
  have hsplit : (2 : Nat) ^ 32 = 2 ^ (32 - s) * 2 ^ s := by
    rw [← pow_add]
    have h1 : 32 - s + s = 32 := by omega
    rw [h1]
  have hmod : b % 128 * 2 ^ s % 2 ^ 32 = b % 128 % 2 ^ (32 - s) * 2 ^ s := by
    rw [hsplit, Nat.mul_mod_mul_right]
  rw [hmod, lor_mul_two_pow hres]
  have hA : b % 128 % 2 ^ (32 - s) < 2 ^ (32 - s) :=
    Nat.mod_lt _ (Nat.two_pow_pos _)
  have hbound : result + b % 128 % 2 ^ (32 - s) * 2 ^ s < 2 ^ 32 := by
    have h1 : b % 128 % 2 ^ (32 - s) * 2 ^ s ≤ (2 ^ (32 - s) - 1) * 2 ^ s :=
      Nat.mul_le_mul_right _ (by omega)
    have h2 : (2 ^ (32 - s) - 1) * 2 ^ s = 2 ^ 32 - 2 ^ s := by
      rw [Nat.sub_mul, one_mul, ← pow_add]
      have h3 : 32 - s + s = 32 := by omega
      rw [h3]
    have h4 : (2 : Nat) ^ s ≤ 2 ^ 32 :=
      Nat.pow_le_pow_right (by norm_num) (by omega)
    omega
  have hres32 : result < 2 ^ 32 :=
    lt_of_lt_of_le hres (Nat.pow_le_pow_right (by norm_num) (by omega))
  rw [Nat.add_mod, Nat.mod_eq_of_lt hres32, hmod, Nat.mod_eq_of_lt hbound]

/-- Accumulating a continuation byte: below shift 21 the or-shift is exact
addition, and the accumulator stays below the next weight. -/
theorem leb_byte_step_lt {result p s : Nat} (hs : s ≤ 21) (hres : result < 2 ^ s) :
    result ||| ((p &&& 127) <<< s) % 2 ^ 32 = result + p % 128 * 2 ^ s ∧
    result + p % 128 * 2 ^ s < 2 ^ (s + 7) := by
  rw [and_byte_low, Nat.shiftLeft_eq]
  have hp : p % 128 < 128 := Nat.mod_lt _ (by norm_num)
  have hchunkb : p % 128 * 2 ^ s ≤ 127 * 2 ^ s :=
    Nat.mul_le_mul_right _ (by omega)
  have hpow : (2 : Nat) ^ (s + 7) = 128 * 2 ^ s := by
    rw [pow_add, mul_comm]
    norm_num
  have hlt : (2 : Nat) ^ (s + 7) ≤ 2 ^ 32 :=
    Nat.pow_le_pow_right (by norm_num) (by omega)
  have hchunk32 : p % 128 * 2 ^ s < 2 ^ 32 := by
    have h6 : (127 : Nat) * 2 ^ s < 128 * 2 ^ s :=
      (Nat.mul_lt_mul_right (Nat.two_pow_pos s)).mpr (by norm_num)
    omega
  rw [Nat.mod_eq_of_lt hchunk32, lor_mul_two_pow hres]
  refine ⟨rfl, ?_⟩
  have h5 : (2 : Nat) ^ s ≤ 2 ^ s := le_refl _
  omega

theorem read_loop_error (buf : List Nat) (result shift n : Nat)
    (hall : ∀ x ∈ buf, x &&& 128 ≠ 0) :
    read_u32_leb128_loop buf result shift n = .error () := by
  induction buf generalizing result shift n with
  | nil => rfl
  | cons p rest ih =>
    simp only [read_u32_leb128_loop]
    rw [if_neg (hall p (List.mem_cons_self _ _))]
    exact ih _ _ _ (fun x hx => hall x (List.mem_cons_of_mem _ hx))

theorem read_loop_ok (pre : List Nat) (b : Nat) (post : List Nat)
    (i result n : Nat) (hlen : pre.length + i ≤ 4)
    (hpre : ∀ x ∈ pre, x &&& 128 ≠ 0) (hb : b &&& 128 = 0)
    (hres : result < 2 ^ (7 * i)) :
    read_u32_leb128_loop (pre ++ b :: post) result (7 * i) n =
      .ok ((result + lebValue (pre ++ [b]) * 2 ^ (7 * i)) % 2 ^ 32,
        n + (pre.length + 1)) := by
  induction pre generalizing i result n with
  | nil =>
    simp only [List.nil_append, read_u32_leb128_loop]
    rw [if_pos hb]
    rw [leb_byte_step (by omega) hres]
    simp [lebValue]
  | cons p rest ih =>
    simp only [List.cons_append, read_u32_leb128_loop]
    simp only [List.append_eq]
    rw [if_neg (hpre p (List.mem_cons_self _ _))]
    have hs21 : 7 * i ≤ 21 := by
      simp only [List.length_cons] at hlen
      omega
    obtain ⟨heq, hlt⟩ := leb_byte_step_lt (p := p) hs21 hres
    rw [heq]
    have h7 : 7 * i + 7 = 7 * (i + 1) := by ring
    rw [h7]
    have hlen2 : rest.length + (i + 1) ≤ 4 := by
      simp only [List.length_cons] at hlen
      omega
    have hlt2 : result + p % 128 * 2 ^ (7 * i) < 2 ^ (7 * (i + 1)) := by
      have h8 : 7 * i + 7 = 7 * (i + 1) := by ring
      rw [← h8]
      exact hlt
    rw [ih (i + 1) _ (n + 1) hlen2
      (fun x hx => hpre x (List.mem_cons_of_mem _ hx)) hlt2]
    have harith : result + p % 128 * 2 ^ (7 * i) +
        lebValue (rest ++ [b]) * 2 ^ (7 * (i + 1)) =
        result + lebValue (p :: (rest ++ [b])) * 2 ^ (7 * i) := by
      have hpow : (2 : Nat) ^ (7 * (i + 1)) = 128 * 2 ^ (7 * i) := by
        have h9 : 7 * (i + 1) = 7 + 7 * i := by ring
        rw [h9, pow_add]
        norm_num
      simp only [lebValue]
      rw [hpow]
      ring
    rw [harith]
    have hcount : n + 1 + (rest.length + 1) = n + ((p :: rest).length + 1) := by
      simp
      omega
    rw [hcount]

/-- C10: `read_u32_leb128` over the at-most-5 bytes read at the address: if
some byte before the 5-byte limit has its continuation bit clear, the result
is `Ok` with the unsigned LEB128 value of the consumed bytes reduced modulo
2^32 and the count of consumed bytes (between 1 and 5); if every available
byte has the continuation bit set — including a truncated read — the result
is `Err`. -/
theorem c10_read_u32_leb128 (buf : List Nat) (hlen : buf.length ≤ 5)
    (hbytes : ∀ x ∈ buf, x < 256) :
    (∀ pre b post, buf = pre ++ b :: post → (∀ x ∈ pre, x &&& 128 ≠ 0) →
      b &&& 128 = 0 →
      read_u32_leb128 buf = .ok (lebValue (pre ++ [b]) % 2 ^ 32, pre.length + 1) ∧
      1 ≤ pre.length + 1 ∧ pre.length + 1 ≤ 5) ∧
    ((∀ x ∈ buf, x &&& 128 ≠ 0) → read_u32_leb128 buf = .error ()) := by
  constructor
  · intro pre b post hsplit hpre hb
    subst hsplit
    have hplen : pre.length ≤ 4 := by
      simp only [List.length_append, List.length_cons] at hlen
      omega
    refine ⟨?_, by omega, by omega⟩
    unfold read_u32_leb128
    have h := read_loop_ok pre b post 0 0 0 (by omega) hpre hb (by simp)
    simpa using h
  · intro hall
    exact read_loop_error _ _ _ _ hall

/-- Witness for C10: `[0xe5, 0x8e, 0x26]` decodes to 624485 in 3 bytes, and
`[0x80, 0x80]` (all continuation bits set, truncated) fails. -/
theorem c10_read_u32_leb128_witness :
    read_u32_leb128 [229, 142, 38] = .ok (624485, 3) ∧
    read_u32_leb128 [128, 128] = .error () := by
  constructor
  · have h := ((c10_read_u32_leb128 [229, 142, 38] (by decide) (by decide)).1
      [229, 142] 38 [] rfl (by decide) (by decide)).1
    norm_num [lebValue] at h
    exact h
  · exact (c10_read_u32_leb128 [128, 128] (by decide) (by decide)).2 (by decide)

end WasmView
